import Mathlib

/-!
Verification development for the chunkah core pipeline.

This file gives a shallow embedding, in Lean 4, of the parts of the chunkah
source that the specification's claims are about:

* paths and file metadata (`src/components/mod.rs`: `FileType`, `FileInfo`);
* the stability model (`src/components/rpm.rs`: `calculate_stability`);
* the attribution engine (`src/components/mod.rs`: `into_components` and its
  final stability fill-in pass);
* the rpm and alpm backends' `claims_for_path`
  (`src/components/rpm.rs`, `src/components/alpm.rs`);
* the xattr backend (`src/components/xattr.rs`: `XattrRepo::load`,
  `get_component_xattr`);
* the scanner's prune logic (`src/scan.rs`: `check_prune` and the prune
  dispatch inside `Scanner::scan`);
* the per-layer tar writer (`src/tar.rs`: `write_files_to_tar` and the entry
  writers it calls).

Modelling conventions:

* A filesystem path is represented by its list of components
  (camino `Utf8PathBuf`); the absolute path `/usr/bin` becomes
  `["usr", "bin"]`.  camino's component-wise `starts_with` becomes
  `pathStartsWith`, and the `BTreeMap` ordering on `Utf8PathBuf` (which
  compares component-wise) becomes the lexicographic order `pathLt`.
* Rust machine integers (`u32`, `u64`) become `Nat`; none of the modelled
  code paths can overflow them, and `saturating_sub` is exactly `Nat`
  subtraction.
* `f64` stability values become `ℚ` where the code only compares, divides
  by two, and takes minima (all exact on the floats involved), and become
  the symbolic outcome type `StabilityResult` in `calculate_stability`,
  where the code's only float-producing operation is a final
  `exp(-lambda * 7)` whose inputs the outcome records exactly.
* Byte strings (`Vec<u8>`) become `Bytes := List Nat`.
* Maps (`BTreeMap`, `HashMap`) become association lists with
  insert-replaces-key semantics; a `BTreeMap` iterated in order becomes a
  list sorted strictly by `pathLt`.
* Fallible functions return `Except Unit` (the error payload is irrelevant
  to every claim).
-/

namespace Chunkah

/-- Byte strings (`Vec<u8>` in the source). -/
abbrev Bytes := List Nat

/-- A filesystem path as its list of components (camino `Utf8PathBuf`). -/
abbrev FsPath := List String

/-- camino `Utf8Path::starts_with`: `pathStartsWith p q` holds when `q` is a
component-wise prefix of `p` (so `p` is `q` or lies below `q`). -/
def pathStartsWith : FsPath → FsPath → Bool
  | _, [] => true
  | [], _ :: _ => false
  | x :: xs, y :: ys => if y = x then pathStartsWith xs ys else false

/-- The strict component-wise lexicographic order on paths: the iteration
order of a `BTreeMap<Utf8PathBuf, _>` (Rust `FsPath` comparison is
component-wise). -/
def pathLt : FsPath → FsPath → Bool
  | [], [] => false
  | [], _ :: _ => true
  | _ :: _, [] => false
  | x :: xs, y :: ys => if x = y then pathLt xs ys else decide (x < y)

/-- Association-list lookup (`HashMap::get` / `BTreeMap::get`). -/
def lookupA {α : Type} : List (FsPath × α) → FsPath → Option α
  | [], _ => none
  | (k, v) :: rest, p => if k = p then some v else lookupA rest p

/-- Association-list insert with replace-on-existing-key semantics
(`HashMap::insert` / `BTreeMap::insert`). -/
def insertA {α : Type} : List (FsPath × α) → FsPath → α → List (FsPath × α)
  | [], p, v => [(p, v)]
  | (k, w) :: rest, p, v => if k = p then (k, v) :: rest else (k, w) :: insertA rest p v

theorem pathStartsWith_refl (p : FsPath) : pathStartsWith p p = true := by
  induction p with
  | nil => rfl
  | cons x xs ih => simp [pathStartsWith, ih]

theorem pathStartsWith_nil (p : FsPath) : pathStartsWith p [] = true := by
  cases p <;> rfl

/-- `pathStartsWith` really is the list-prefix relation. -/
theorem pathStartsWith_iff (p q : FsPath) :
    pathStartsWith p q = true ↔ ∃ r, q ++ r = p := by
  induction q generalizing p with
  | nil => simp [pathStartsWith_nil]
  | cons y ys ih =>
    cases p with
    | nil =>
      simp only [pathStartsWith]
      constructor
      · intro h; simp at h
      · rintro ⟨r, hr⟩; simp at hr
    | cons x xs =>
      simp only [pathStartsWith]
      by_cases hxy : y = x
      · subst hxy
        rw [if_pos rfl, ih]
        constructor
        · rintro ⟨r, rfl⟩; exact ⟨r, rfl⟩
        · rintro ⟨r, hr⟩
          injection hr with _ h2
          exact ⟨r, h2⟩
      · rw [if_neg hxy]
        constructor
        · intro h; simp at h
        · rintro ⟨r, hr⟩
          injection hr with h1 _
          exact absurd h1 hxy

theorem pathLt_irrefl (p : FsPath) : pathLt p p = false := by
  induction p with
  | nil => rfl
  | cons x xs ih => simp [pathLt, ih]

/-- A proper component-wise ancestor is strictly smaller in `pathLt`. -/
theorem pathLt_of_startsWith {p q : FsPath} (h : pathStartsWith p q = true) (hne : p ≠ q) :
    pathLt q p = true := by
  induction q generalizing p with
  | nil =>
    cases p with
    | nil => exact absurd rfl hne
    | cons x xs => rfl
  | cons y ys ih =>
    cases p with
    | nil => simp [pathStartsWith] at h
    | cons x xs =>
      by_cases hxy : y = x
      · subst hxy
        simp only [pathStartsWith, if_pos rfl] at h
        have hne' : xs ≠ ys := fun hcontra => hne (by rw [hcontra])
        have := ih h hne'
        simp [pathLt, this]
      · simp [pathStartsWith, if_neg hxy] at h

/-- Unfold `pathLt` on cons cells into its two disjuncts. -/
theorem pathLt_cons {x y : String} {xs ys : FsPath} (h : pathLt (x :: xs) (y :: ys) = true) :
    x < y ∨ (x = y ∧ pathLt xs ys = true) := by
  by_cases heq : x = y
  · exact Or.inr ⟨heq, by simpa [pathLt, heq] using h⟩
  · exact Or.inl (of_decide_eq_true (by simpa [pathLt, heq] using h))

/-- Interval lemma: the descendants of `a` form a contiguous block in the
`pathLt` order.  If `a` is an ancestor of `c` and `b` lies between `a` and
`c`, then `a` is an ancestor of `b` as well. -/
theorem startsWith_of_between {a : FsPath} : ∀ {b c : FsPath},
    pathStartsWith c a = true →
    (a = b ∨ pathLt a b = true) →
    (b = c ∨ pathLt b c = true) →
    pathStartsWith b a = true := by
  induction a with
  | nil => intro b c _ _ _; exact pathStartsWith_nil b
  | cons x xs ih =>
    intro b c hac hab hbc
    rcases hab with rfl | hab
    · exact pathStartsWith_refl _
    rcases hbc with rfl | hbc
    · exact hac
    cases c with
    | nil => cases b <;> simp [pathLt] at hbc
    | cons z zs =>
      cases b with
      | nil => simp [pathLt] at hab
      | cons y ys =>
        by_cases hxz : x = z
        · subst hxz
          have hzx : pathStartsWith zs xs = true := by
            simpa [pathStartsWith] using hac
          rcases pathLt_cons hab with hxy | ⟨hxy, htail⟩
          · rcases pathLt_cons hbc with hyx | ⟨hyx, _⟩
            · exact absurd (lt_trans hxy hyx) (lt_irrefl x)
            · exact absurd (hyx ▸ hxy) (lt_irrefl y)
          · subst hxy
            rcases pathLt_cons hbc with hyx | ⟨_, htail2⟩
            · exact absurd hyx (lt_irrefl x)
            · have := ih hzx (Or.inr htail) (Or.inr htail2)
              simpa [pathStartsWith] using this
        · simp [pathStartsWith, hxz] at hac

/-! ## File metadata (`src/components/mod.rs`) -/

/-- `FileType` from `src/components/mod.rs`: the only types the scanner
admits (sockets, FIFOs and devices are rejected or skipped upstream). -/
inductive FileType where
  | Directory
  | File
  | Symlink
deriving DecidableEq, Repr

/-- `FileInfo` from `src/components/mod.rs`: cached metadata from the scan. -/
structure FileInfo where
  file_type : FileType
  mode : Nat
  size : Nat
  uid : Nat
  gid : Nat
  mtime : Nat
  ino : Nat
  nlink : Nat
  xattrs : List (String × Bytes)
deriving DecidableEq, Repr

/-- `FileMap` from `src/components/mod.rs` (`BTreeMap<Utf8PathBuf, FileInfo>`),
as an association list; when the code iterates the map, the list is assumed
sorted strictly by `pathLt` (hypothesis `List.Pairwise` in the theorems). -/
abbrev FileMap := List (FsPath × FileInfo)

/-! ## Stability model (`src/components/rpm.rs`: `calculate_stability`) -/

/-- `SECS_PER_DAY` from `src/components/mod.rs`. -/
def SECS_PER_DAY : Nat := 60 * 60 * 24

/-- `STABILITY_LOOKBACK_DAYS` from `src/components/mod.rs`. -/
def STABILITY_LOOKBACK_DAYS : Nat := 365

/-- The value of `calculate_stability`, with the final float abstracted.

`calculate_stability` returns an `f64` from one of exactly three return
sites; the first two return the literals `0.99` and `0.0` and the third
returns `exp(-lambda * STABILITY_PERIOD_DAYS)` with
`lambda = num_changes / span_days` and `span_days = span_secs / 86400`.
The outcome type records which return site fired and, for the Poisson site,
the exact integers `num_changes` and `span_secs` that determine the float.
All comparisons feeding the branch decisions are exact on the integers
involved, so this is a faithful model of the control flow. -/
inductive StabilityResult where
  | veryStable
  | volatile
  | poisson (numChanges spanSecs : Nat)
deriving DecidableEq, Repr

/-- The tail of `calculate_stability` (rpm.rs lines 185-206), given the
already-restricted timestamp list: return 0.99 on an empty restriction,
0.0 when the restriction spans less than one day, and the Poisson value
otherwise.  (`u64::saturating_sub` is `Nat` subtraction; `Iterator::min`
on the non-empty list `t :: ts` is `ts.foldl min t`; the `is_empty` early
return and the `unwrap` on the minimum fuse into the match.) -/
def stability_of_relevant : List Nat → Nat → StabilityResult
  | [], _ => .veryStable
  | t :: ts, now =>
    let oldest := ts.foldl min t
    let span := now - oldest
    if span < SECS_PER_DAY then .volatile
    else .poisson (t :: ts).length span

/-- `calculate_stability` from `src/components/rpm.rs` (lines 165-207):
*first* substitute `[buildtime]` for an empty changelog list (lines
176-180), *then* restrict to the lookback window (line 183) and branch
(lines 185-206).  `now` is the wall-clock time, passed explicitly. -/
def calculate_stability (changelog_times : List Nat) (buildtime now : Nat) :
    StabilityResult :=
  let lookback_start := now - STABILITY_LOOKBACK_DAYS * SECS_PER_DAY
  let relevant_times := if changelog_times.isEmpty then [buildtime] else changelog_times
  let relevant_times := relevant_times.filter (fun t => lookback_start ≤ t)
  stability_of_relevant relevant_times now

/-- Modelled from the spec (§4.3, steps 1-7), for comparison with
`calculate_stability`: restrict `T` to the lookback window first (step 2)
and return 0.99 if the restriction is empty (step 3); the substitution of
`[b]` for an empty original `T` (step 4) comes only after step 3, so it is
unreachable: an empty `T` has an empty restriction and already returned at
step 3.  Steps 5-7 therefore always operate on the restricted list. -/
def spec_calculate_stability (changelog_times : List Nat) (_buildtime now : Nat) :
    StabilityResult :=
  let lookback_start := now - STABILITY_LOOKBACK_DAYS * SECS_PER_DAY
  stability_of_relevant (changelog_times.filter (fun t => lookback_start ≤ t)) now

/-- C2, counterexample.  The claim says a component with an empty changelog
list always gets stability 0.99, and that `calculate_stability` restricts
before substituting.  The code substitutes the build timestamp *first*
(rpm.rs lines 176-180) and restricts afterwards (line 183): with an empty
changelog and a build 30 days before `now`, the code lands in the Poisson
branch (one change over 30 days), not at the 0.99 return — while the
spec's step order would return 0.99. -/
theorem calculate_stability_empty_changelog_counterexample :
    calculate_stability [] (370 * 86400) (400 * 86400) = .poisson 1 (30 * 86400) ∧
    spec_calculate_stability [] (370 * 86400) (400 * 86400) = .veryStable ∧
    StabilityResult.poisson 1 (30 * 86400) ≠ .veryStable := by
  refine ⟨?_, ?_, by simp⟩
  · simp [calculate_stability, stability_of_relevant, SECS_PER_DAY,
      STABILITY_LOOKBACK_DAYS, List.filter]
  · simp [spec_calculate_stability, stability_of_relevant, List.filter]

/-- C2, amended.  `calculate_stability` substitutes the build timestamp for
an empty changelog list *before* restricting to the lookback window: it
computes exactly what the spec's steps 2-7 compute on the
already-substituted list.  For a non-empty changelog the two step orders
agree; for an empty changelog the result is 0.99 only when the build
timestamp is older than the lookback window, and otherwise falls in the
0.0 or Poisson branch — not 0.99 regardless of the build timestamp. -/
theorem calculate_stability_substitutes_before_restricting
    (changelog_times : List Nat) (buildtime now : Nat) :
    (calculate_stability changelog_times buildtime now =
      spec_calculate_stability
        (if changelog_times.isEmpty then [buildtime] else changelog_times)
        buildtime now) ∧
    (changelog_times ≠ [] →
      calculate_stability changelog_times buildtime now =
        spec_calculate_stability changelog_times buildtime now) ∧
    (changelog_times = [] →
      calculate_stability changelog_times buildtime now =
        (if now - STABILITY_LOOKBACK_DAYS * SECS_PER_DAY ≤ buildtime then
          (if now - buildtime < SECS_PER_DAY then .volatile
           else .poisson 1 (now - buildtime))
         else .veryStable)) := by
  refine ⟨rfl, ?_, ?_⟩
  · intro hne
    cases changelog_times with
    | nil => exact absurd rfl hne
    | cons t ts => rfl
  · rintro rfl
    show stability_of_relevant
      (List.filter (fun t => decide (now - STABILITY_LOOKBACK_DAYS * SECS_PER_DAY ≤ t))
        [buildtime]) now = _
    by_cases hb : now - STABILITY_LOOKBACK_DAYS * SECS_PER_DAY ≤ buildtime
    · have hfil : List.filter
          (fun t => decide (now - STABILITY_LOOKBACK_DAYS * SECS_PER_DAY ≤ t))
          [buildtime] = [buildtime] := by
        simp only [List.filter_cons, List.filter_nil, decide_eq_true_eq]
        rw [if_pos hb]
      rw [hfil, if_pos hb]
      simp [stability_of_relevant]
    · have hfil : List.filter
          (fun t => decide (now - STABILITY_LOOKBACK_DAYS * SECS_PER_DAY ≤ t))
          [buildtime] = [] := by
        simp only [List.filter_cons, List.filter_nil, decide_eq_true_eq]
        rw [if_neg hb]
      rw [hfil, if_neg hb]
      rfl

/-- Witness for `calculate_stability_substitutes_before_restricting` at a
concrete input (empty changelog, recent build). -/
theorem calculate_stability_substitutes_witness :
    ([] : List Nat) = [] ∧
    calculate_stability [] (370 * 86400) (400 * 86400) =
      (if (400 * 86400) - STABILITY_LOOKBACK_DAYS * SECS_PER_DAY ≤ 370 * 86400 then
        (if (400 * 86400) - 370 * 86400 < SECS_PER_DAY then .volatile
         else .poisson 1 ((400 * 86400) - 370 * 86400))
       else .veryStable) :=
  ⟨rfl, (calculate_stability_substitutes_before_restricting [] (370 * 86400)
    (400 * 86400)).2.2 rfl⟩

/-! ## Stability fill-in pass (`src/components/mod.rs`, `into_components`
lines 205-223) -/

/-- `Component` from `src/components/mod.rs`.  `stability` is an `f64` in the
source; the fill-in pass only compares it with `0.0`, takes minima and
divides by two, all exact on floats, so `ℚ` is a faithful carrier. -/
structure Component where
  mtime_clamp : Nat
  stability : ℚ
  files : FileMap
deriving DecidableEq

/-- The `min_stability` computation of `into_components` (mod.rs lines
209-217): the minimum of the strictly positive stabilities, defaulting to
`0.5` when there are none (`unwrap_or(0.5)`). -/
def min_stability (stabs : List ℚ) : ℚ :=
  match stabs.filter (fun s => 0 < s) with
  | [] => 1 / 2
  | s :: ss => ss.foldl min s

/-- The final stability fill-in pass of `into_components` (mod.rs lines
205-223): components with stability exactly `0.0` are reassigned
`min_stability / 2`. -/
def stability_fill_in (cs : List Component) : List Component :=
  let fallback_stability := min_stability (cs.map Component.stability) / 2
  cs.map (fun c => if c.stability = 0 then { c with stability := fallback_stability } else c)

theorem foldl_min_mem (s : ℚ) (ss : List ℚ) : ss.foldl min s ∈ s :: ss := by
  induction ss generalizing s with
  | nil => simp
  | cons a as ih =>
    rw [List.foldl_cons]
    have h := ih (min s a)
    rw [List.mem_cons] at h
    rcases h with h | h
    · rw [h]
      rcases min_choice s a with hc | hc <;> rw [hc] <;> simp
    · exact List.mem_cons_of_mem _ (List.mem_cons_of_mem _ h)

theorem foldl_min_le (s : ℚ) (ss : List ℚ) : ∀ x ∈ s :: ss, ss.foldl min s ≤ x := by
  induction ss generalizing s with
  | nil =>
    intro x hx
    rw [List.mem_cons] at hx
    rcases hx with rfl | hx
    · simp
    · simp at hx
  | cons a as ih =>
    intro x hx
    rw [List.foldl_cons]
    rw [List.mem_cons, List.mem_cons] at hx
    have hmin : as.foldl min (min s a) ≤ min s a := ih (min s a) _ (List.mem_cons_self _ _)
    rcases hx with rfl | rfl | hx
    · exact le_trans hmin (min_le_left _ _)
    · exact le_trans hmin (min_le_right _ _)
    · exact ih (min s a) x (List.mem_cons_of_mem _ hx)

/-- C1, counterexample.  The claim says that when every component has zero
stability, each one's stability becomes `0.5`.  In the code the
`unwrap_or(0.5)` default feeds `min_stability` (mod.rs line 217), which is
then halved into `fallback_stability` (line 218): an all-zero component set
ends up with stability `0.25`, not `0.5`. -/
theorem stability_fill_in_all_zero_counterexample :
    (stability_fill_in [⟨0, 0, []⟩]).map Component.stability ≠ [(1 / 2 : ℚ)] := by
  have hfil : ([(0 : ℚ)].filter (fun s => 0 < s)) = [] := by simp
  have hmin : min_stability [(0 : ℚ)] = 1 / 2 := by
    unfold min_stability
    rw [hfil]
  intro hcontra
  simp only [stability_fill_in, List.map_cons, List.map_nil] at hcontra
  rw [hmin] at hcontra
  norm_num at hcontra

/-- C1, amended.  After the fill-in pass, a component with stability exactly
`0` is reassigned `min_stability / 2`, where `min_stability` is the least
strictly positive input stability when one exists and `0.5` otherwise — so
in the all-zero case every component gets `0.25` (not `0.5`).  Components
with non-zero stability are unchanged, and (for non-negative inputs, which
is all the backends produce) every resulting stability is strictly
positive. -/
theorem stability_fill_in_spec (cs : List Component)
    (h : ∀ c ∈ cs, 0 ≤ c.stability) :
    (∀ c ∈ stability_fill_in cs, 0 < c.stability) ∧
    List.Forall₂ (fun c c' =>
        c'.stability =
          if c.stability = 0 then min_stability (cs.map Component.stability) / 2
          else c.stability)
      cs (stability_fill_in cs) ∧
    ((∃ c ∈ cs, 0 < c.stability) →
      ∃ c0 ∈ cs, 0 < c0.stability ∧
        min_stability (cs.map Component.stability) = c0.stability ∧
        ∀ c ∈ cs, 0 < c.stability → c0.stability ≤ c.stability) ∧
    ((∀ c ∈ cs, c.stability = 0) →
      min_stability (cs.map Component.stability) = 1 / 2) := by
  have hpos : 0 < min_stability (cs.map Component.stability) := by
    cases hf : (cs.map Component.stability).filter (fun s => 0 < s) with
    | nil =>
      unfold min_stability
      rw [hf]
      norm_num
    | cons s ss =>
      have hms : min_stability (cs.map Component.stability) = ss.foldl min s := by
        unfold min_stability
        rw [hf]
      rw [hms]
      have hmem := foldl_min_mem s ss
      rw [← hf] at hmem
      have := List.of_mem_filter hmem
      simpa using this
  refine ⟨?_, ?_, ?_, ?_⟩
  · intro c hc
    unfold stability_fill_in at hc
    simp only [List.mem_map] at hc
    obtain ⟨c0, hc0, rfl⟩ := hc
    by_cases hz : c0.stability = 0
    · simp only [if_pos hz]
      positivity
    · simp only [if_neg hz]
      exact lt_of_le_of_ne (h c0 hc0) (Ne.symm hz)
  · unfold stability_fill_in
    rw [List.forall₂_map_right_iff]
    refine List.forall₂_same.mpr ?_
    intro c _
    by_cases hz : c.stability = 0
    · simp [hz]
    · simp [hz]
  · rintro ⟨c1, hc1, hc1pos⟩
    cases hf : (cs.map Component.stability).filter (fun s => 0 < s) with
    | nil =>
      exfalso
      have hm : c1.stability ∈ (cs.map Component.stability).filter (fun s => 0 < s) :=
        List.mem_filter.mpr ⟨List.mem_map_of_mem Component.stability hc1, by simpa⟩
      rw [hf] at hm
      simp at hm
    | cons s ss =>
      have hms : min_stability (cs.map Component.stability) = ss.foldl min s := by
        unfold min_stability
        rw [hf]
      have hmem := foldl_min_mem s ss
      rw [← hf] at hmem
      have hmem' := List.of_mem_filter hmem
      have hmemf := List.mem_of_mem_filter hmem
      obtain ⟨c0, hc0, hc0eq⟩ := List.mem_map.mp hmemf
      refine ⟨c0, hc0, ?_, ?_, ?_⟩
      · rw [hc0eq]
        simpa using hmem'
      · rw [hms]
        exact hc0eq.symm
      · intro c hc hcpos
        rw [hc0eq]
        have hcmem : c.stability ∈ s :: ss := by
          rw [← hf]
          exact List.mem_filter.mpr ⟨List.mem_map_of_mem Component.stability hc, by simpa⟩
        exact foldl_min_le s ss c.stability hcmem
  · intro hall
    unfold min_stability
    have hnil : (cs.map Component.stability).filter (fun s => 0 < s) = [] := by
      refine List.filter_eq_nil_iff.mpr ?_
      intro s hs
      obtain ⟨c, hc, rfl⟩ := List.mem_map.mp hs
      simp [hall c hc]
    rw [hnil]

/-- Witness for `stability_fill_in_spec` at a concrete input: one zero and
one positive component. -/
theorem stability_fill_in_spec_witness :
    (∀ c ∈ [Component.mk 0 0 [], Component.mk 5 1 []], 0 ≤ c.stability) ∧
    (∀ c ∈ stability_fill_in [Component.mk 0 0 [], Component.mk 5 1 []],
      0 < c.stability) := by
  have h : ∀ c ∈ [Component.mk 0 0 [], Component.mk 5 1 []], 0 ≤ c.stability := by
    intro c hc
    rw [List.mem_cons, List.mem_cons] at hc
    rcases hc with rfl | rfl | hc
    · norm_num
    · norm_num
    · simp at hc
  exact ⟨h, (stability_fill_in_spec _ h).1⟩

/-! ## RPM backend (`src/components/rpm.rs`) -/

/-- `rpm_qa::FileInfo` is a boundary collaborator; the modelled code
(`file_info_to_file_type`, rpm.rs lines 209-217) consults only its raw rpm
`mode` field, so the model carries just that. -/
structure RpmFileInfo where
  mode : Nat
deriving DecidableEq, Repr

/-- `RPMDB_PATHS` from rpm.rs line 13 (rootfs-relative component lists). -/
def RPMDB_PATHS : List FsPath :=
  [["usr", "lib", "sysimage", "rpm"], ["usr", "share", "rpm"], ["var", "lib", "rpm"]]

/-- `RpmRepo` from rpm.rs: `components` is the `IndexMap` of component
(SRPM) names to `(buildtime, stability)` in insertion order (a
`ComponentId` is an index into it); `path_to_components` maps each path to
its list of `(ComponentId, rpm_qa::FileInfo)` owners. -/
structure RpmRepo where
  components : List (String × Nat × StabilityResult)
  path_to_components : List (FsPath × List (Nat × RpmFileInfo))

/-- `file_info_to_file_type` from rpm.rs lines 209-217: classify by the
`S_IFMT` bits of the rpm-recorded mode (`S_IFDIR`, `S_IFREG`, `S_IFLNK`;
anything else is `None`). -/
def file_info_to_file_type (fi : RpmFileInfo) : Option FileType :=
  let ft := fi.mode &&& 0o170000
  if ft = 0o040000 then some .Directory
  else if ft = 0o100000 then some .File
  else if ft = 0o120000 then some .Symlink
  else none

/-- `RpmRepo::claims_for_path` from rpm.rs lines 89-107.  The engine always
passes absolute paths, for which `strip_prefix("/")` succeeds and is the
identity in the component-list model; the rpmdb exclusion then tests
`rel_path.starts_with` against each entry of `RPMDB_PATHS`.  Otherwise the
path's entries are filtered to those whose rpm-recorded file type matches
the queried type, and their ids are returned. -/
def RpmRepo.claims_for_path (repo : RpmRepo) (path : FsPath) (file_type : FileType) :
    List Nat :=
  if RPMDB_PATHS.any (fun p => pathStartsWith path p) then []
  else
    match lookupA repo.path_to_components path with
    | none => []
    | some entries =>
      (entries.filter (fun e => file_info_to_file_type e.2 = some file_type)).map
        (fun e => e.1)

/-! ## ALPM backend (`src/components/alpm.rs`) -/

/-- `AlpmComponentsRepo` from alpm.rs: `components` is the `IndexMap` of
package-base names to builddates in insertion order; `path_to_components`
maps each path to the ids that listed it.  Note: unlike the rpm repo, no
file-type information is recorded (alpm `files` lists carry only paths —
alpm.rs lines 116-122). -/
structure AlpmComponentsRepo where
  components : List (String × Nat)
  path_to_components : List (FsPath × List Nat)

/-- The `path_to_components.entry(path).or_default().push(id)` step of
`AlpmComponentsRepo::files_to_map` (alpm.rs lines 137-140). -/
def alpmPushClaim : List (FsPath × List Nat) → FsPath → Nat → List (FsPath × List Nat)
  | [], p, id => [(p, [id])]
  | (k, ids) :: rest, p, id =>
    if k = p then (k, ids ++ [id]) :: rest else (k, ids) :: alpmPushClaim rest p id

/-- `AlpmComponentsRepo::files_to_map` from alpm.rs lines 108-143: each
path from the package database's `files` list is recorded for the
component.  (The source receives relative paths and prepends `/`; in the
component-list model both spellings are the same list.  The bail-out on an
absolute input path is a malformed-input guard with no counterpart in the
component-list model.  No rpm-style database-path exclusion and no
file-type recording happens here or in `claims_for_path`.) -/
def alpm_files_to_map (m : List (FsPath × List Nat)) (component_id : Nat)
    (pkgdb_files : List FsPath) : List (FsPath × List Nat) :=
  pkgdb_files.foldl (fun acc path => alpmPushClaim acc path component_id) m

/-- `AlpmComponentsRepo::claims_for_path` from alpm.rs lines 155-160: a raw
lookup.  The `file_type` parameter is received but ignored (`_file_type`
in the source), and no database paths are excluded. -/
def AlpmComponentsRepo.claims_for_path (repo : AlpmComponentsRepo) (path : FsPath)
    (_file_type : FileType) : List Nat :=
  (lookupA repo.path_to_components path).getD []

/-- C3, counterexample.  The claim quantifies over *every* backend, but
`AlpmComponentsRepo::claims_for_path` ignores the queried file type: a
repo built by `files_to_map` from a package listing one path returns that
package's id for *both* a `File` query and a `Symlink` query at the same
path, so no assignment of a recorded file type to that record can make the
returned ids "match the queried type". -/
theorem alpm_claims_ignore_file_type_counterexample :
    (AlpmComponentsRepo.claims_for_path
        ⟨[("pacman", 1000)], alpm_files_to_map [] 0 [["usr", "bin", "pacman"]]⟩
        ["usr", "bin", "pacman"] .File = [0]) ∧
    (AlpmComponentsRepo.claims_for_path
        ⟨[("pacman", 1000)], alpm_files_to_map [] 0 [["usr", "bin", "pacman"]]⟩
        ["usr", "bin", "pacman"] .Symlink = [0]) ∧
    ¬ ∃ recorded : FileType, ∀ ft : FileType,
        0 ∈ AlpmComponentsRepo.claims_for_path
            ⟨[("pacman", 1000)], alpm_files_to_map [] 0 [["usr", "bin", "pacman"]]⟩
            ["usr", "bin", "pacman"] ft → recorded = ft := by
  refine ⟨by decide, by decide, ?_⟩
  rintro ⟨recorded, hrec⟩
  have h1 := hrec .File (by decide)
  have h2 := hrec .Symlink (by decide)
  rw [h1] at h2
  cases h2

/-- C3, amended.  The rpm backend's `claims_for_path` returns only ids
whose rpm-recorded file type for that path matches the queried type; the
alpm backend records no file types at all and returns every id listed for
the path regardless of the queried type. -/
theorem claims_for_path_type_filtering
    (rpmRepo : RpmRepo) (alpmRepo : AlpmComponentsRepo) (p : FsPath)
    (ft ft' : FileType) :
    (∀ id ∈ rpmRepo.claims_for_path p ft,
      ∃ entries fi, lookupA rpmRepo.path_to_components p = some entries ∧
        (id, fi) ∈ entries ∧ file_info_to_file_type fi = some ft) ∧
    (alpmRepo.claims_for_path p ft = alpmRepo.claims_for_path p ft') := by
  constructor
  · intro id hid
    unfold RpmRepo.claims_for_path at hid
    by_cases hdb : RPMDB_PATHS.any (fun q => pathStartsWith p q) = true
    · rw [if_pos hdb] at hid
      simp at hid
    · rw [if_neg hdb] at hid
      cases hlook : lookupA rpmRepo.path_to_components p with
      | none => rw [hlook] at hid; simp at hid
      | some entries =>
        rw [hlook] at hid
        simp only [List.mem_map] at hid
        obtain ⟨e, he, rfl⟩ := hid
        have hmem := List.mem_of_mem_filter he
        have hfilt := List.of_mem_filter he
        exact ⟨entries, e.2, rfl, by simpa using hmem, by simpa using hfilt⟩
  · rfl

/-- Witness for `claims_for_path_type_filtering` at a concrete rpm repo:
`/usr/bin/bash` recorded with a regular-file mode. -/
theorem claims_for_path_type_filtering_witness :
    (0 ∈ RpmRepo.claims_for_path
        ⟨[("bash", 1000, .veryStable)],
         [(["usr", "bin", "bash"], [(0, ⟨0o100755⟩)])]⟩
        ["usr", "bin", "bash"] .File) ∧
    (∃ entries fi,
      lookupA (RpmRepo.mk [("bash", 1000, .veryStable)]
          [(["usr", "bin", "bash"], [(0, ⟨0o100755⟩)])]).path_to_components
          ["usr", "bin", "bash"] = some entries ∧
      (0, fi) ∈ entries ∧ file_info_to_file_type fi = some .File) :=
  ⟨by decide,
   (claims_for_path_type_filtering
      ⟨[("bash", 1000, .veryStable)], [(["usr", "bin", "bash"], [(0, ⟨0o100755⟩)])]⟩
      ⟨[], []⟩ ["usr", "bin", "bash"] .File .File).1 0 (by decide)⟩

/-- C4, counterexample.  The rpm backend refuses to claim paths under its
database directories, but the alpm backend has no such exclusion: a repo
built by `files_to_map` from a package that lists a path under
`var/lib/pacman/local` claims that path, so it would not land in the
catch-all. -/
theorem alpm_claims_db_path_counterexample :
    pathStartsWith ["var", "lib", "pacman", "local", "dummy"]
      ["var", "lib", "pacman", "local"] = true ∧
    AlpmComponentsRepo.claims_for_path
      ⟨[("dummy", 1000)], alpm_files_to_map [] 0 [["var", "lib", "pacman", "local", "dummy"]]⟩
      ["var", "lib", "pacman", "local", "dummy"] .File = [0] ∧
    ([0] : List Nat) ≠ [] := by
  refine ⟨by decide, by decide, by decide⟩

/-- C4, amended.  The rpm backend's `claims_for_path` returns the empty
list for every path under one of `RPMDB_PATHS`
(`/usr/lib/sysimage/rpm`, `/usr/share/rpm`, `/var/lib/rpm`), so such
paths can only land in the catch-all; the alpm backend's
`claims_for_path` performs no database-path exclusion at all — it is a
raw lookup, so a package listing a path under `/var/lib/pacman/local`
has that path claimed. -/
theorem claims_for_path_db_exclusion
    (rpmRepo : RpmRepo) (alpmRepo : AlpmComponentsRepo) (p : FsPath) (ft : FileType) :
    (RPMDB_PATHS.any (fun db => pathStartsWith p db) = true →
      rpmRepo.claims_for_path p ft = []) ∧
    (alpmRepo.claims_for_path p ft = (lookupA alpmRepo.path_to_components p).getD []) := by
  constructor
  · intro hdb
    unfold RpmRepo.claims_for_path
    rw [if_pos hdb]
  · rfl

/-- Witness for `claims_for_path_db_exclusion` at a concrete path under
`/usr/share/rpm`. -/
theorem claims_for_path_db_exclusion_witness :
    (RPMDB_PATHS.any (fun db => pathStartsWith ["usr", "share", "rpm", "macros"] db) = true) ∧
    (RpmRepo.claims_for_path
      ⟨[("rpm", 1000, .veryStable)],
       [(["usr", "share", "rpm", "macros"], [(0, ⟨0o100644⟩)])]⟩
      ["usr", "share", "rpm", "macros"] .File = []) :=
  ⟨by decide,
   (claims_for_path_db_exclusion
      ⟨[("rpm", 1000, .veryStable)], [(["usr", "share", "rpm", "macros"], [(0, ⟨0o100644⟩)])]⟩
      ⟨[], []⟩ ["usr", "share", "rpm", "macros"] .File).1 (by decide)⟩

/-! ## Scanner prune logic (`src/scan.rs`) -/

/-- `PrunePath` from scan.rs lines 158-163. -/
inductive PrunePath where
  | Exact (p : FsPath)
  | ChildrenOnly (p : FsPath)
deriving DecidableEq, Repr

/-- `PruneAction` from scan.rs lines 185-192. -/
inductive PruneAction where
  | Keep
  | SkipChildren
  | SkipEntirely
deriving DecidableEq, Repr

/-- `check_prune` from scan.rs lines 195-213: walk the prune list in order
and return on the first match; `Keep` when nothing matches. -/
def check_prune (path : FsPath) : List PrunePath → PruneAction
  | [] => .Keep
  | .Exact prune_path :: rest =>
    if pathStartsWith path prune_path then .SkipEntirely
    else check_prune path rest
  | .ChildrenOnly prune_path :: rest =>
    if path = prune_path then .SkipChildren
    else if pathStartsWith path prune_path then .SkipEntirely
    else check_prune path rest

/-- The walk callback's control flow result (`std::ops::ControlFlow`):
`Break` means "do not recurse into this directory". -/
inductive WalkFlow where
  | Continue
  | Break
deriving DecidableEq, Repr

/-- The prune dispatch of `Scanner::scan` (scan.rs lines 89-110), reduced to
its observables for one entry: whether the entry is inserted into the
`FileMap` and whether the walk recurses below it.  (The metadata/xattr
error paths between these lines abort the whole scan and are orthogonal to
the prune logic.) -/
def scan_prune_dispatch (path : FsPath) (file_type : FileType)
    (prune_paths : List PrunePath) : Bool × WalkFlow :=
  let prune_action := check_prune path prune_paths
  if prune_action = .SkipEntirely then
    if file_type = .Directory then (false, .Break) else (false, .Continue)
  else if prune_action = .SkipChildren ∧ file_type = .Directory then (true, .Break)
  else (true, .Continue)

/-- Whether a prune entry matches a path at all (first-match scanning). -/
def pruneMatches (path : FsPath) : PrunePath → Bool
  | .Exact p => pathStartsWith path p
  | .ChildrenOnly p => pathStartsWith path p

/-- C9, counterexample.  The claim reads each clause as "if any matching
entry of the given kind is in the list"; but `check_prune` returns on the
*first* matching entry.  With the list `[ChildrenOnly /a, Exact /a]` the
directory `/a` starts with the `Exact /a` entry's path, yet it is kept in
the `FileMap` (the earlier `ChildrenOnly` match wins). -/
theorem check_prune_conflicting_entries_counterexample :
    (PrunePath.Exact ["a"] ∈ [PrunePath.ChildrenOnly ["a"], PrunePath.Exact ["a"]]) ∧
    pathStartsWith ["a"] ["a"] = true ∧
    (scan_prune_dispatch ["a"] .Directory
      [PrunePath.ChildrenOnly ["a"], PrunePath.Exact ["a"]]).1 = true := by
  decide

/-- C9, amended.  Prune entries are evaluated in list order and the first
entry whose path is a component-wise ancestor of the entry path decides:
an `Exact` match omits the entry and does not recurse; a `ChildrenOnly`
match keeps the entry but does not recurse when the path *is* the pruned
path, and omits it when the path is strictly deeper.  An entry is inserted
into the `FileMap` iff its action is not `SkipEntirely`, and the walk
descends below a directory iff its action is `Keep`. -/
theorem check_prune_first_match (path : FsPath) (L : List PrunePath) (ft : FileType) :
    (check_prune path L =
      match L.find? (pruneMatches path) with
      | none => .Keep
      | some (.Exact _) => .SkipEntirely
      | some (.ChildrenOnly q) => if path = q then .SkipChildren else .SkipEntirely) ∧
    ((scan_prune_dispatch path ft L).1 = true ↔ check_prune path L ≠ .SkipEntirely) ∧
    ((scan_prune_dispatch path ft L).2 = .Break ↔
      (ft = .Directory ∧ check_prune path L ≠ .Keep)) := by
  refine ⟨?_, ?_, ?_⟩
  · induction L with
    | nil => rfl
    | cons e rest ih =>
      cases e with
      | Exact q =>
        by_cases hq : pathStartsWith path q = true
        · simp [check_prune, List.find?, pruneMatches, hq]
        · simp only [Bool.not_eq_true] at hq
          simp [check_prune, List.find?, pruneMatches, hq, ih]
      | ChildrenOnly q =>
        by_cases heq : path = q
        · subst heq
          simp [check_prune, List.find?, pruneMatches, pathStartsWith_refl]
        · by_cases hq : pathStartsWith path q = true
          · simp [check_prune, List.find?, pruneMatches, hq, heq]
          · simp only [Bool.not_eq_true] at hq
            simp [check_prune, List.find?, pruneMatches, hq, heq, ih]
  · cases hact : check_prune path L <;> cases ft <;>
      simp [scan_prune_dispatch, hact]
  · cases hact : check_prune path L <;> cases ft <;>
      simp [scan_prune_dispatch, hact]

/-! ## Attribution engine (`src/components/mod.rs`: `into_components`,
lines 149-203) -/

/-- `ComponentInfo` from mod.rs lines 234-238. -/
structure ComponentInfo where
  name : String
  mtime_clamp : Nat
  stability : ℚ

/-- One loaded backend, as the engine consumes it: the `ComponentsRepo`
trait object's capability set (mod.rs lines 243-264).  `claims_for_path`
and `component_info` are the dynamic dispatch targets; a component id is
`Nat` (the source's backend-local `ComponentId(usize)`). -/
structure ComponentsRepo where
  name : String
  default_priority : Nat
  claims_for_path : FsPath → FileType → List Nat
  component_info : Nat → ComponentInfo

/-- Generic association-list lookup for non-path keys
(`HashMap::get` on `(usize, ComponentId)` keys). -/
def lookupK {κ α : Type} [DecidableEq κ] : List (κ × α) → κ → Option α
  | [], _ => none
  | (k, v) :: rest, key => if k = key then some v else lookupK rest key

/-- `claims.entry((repo_idx, id)).or_default().insert(path, file_info)`
(mod.rs lines 164-169): insert the path into the keyed bucket, creating
the bucket when absent. -/
def claimsInsert (m : List ((Nat × Nat) × FileMap)) (key : Nat × Nat)
    (p : FsPath) (fi : FileInfo) : List ((Nat × Nat) × FileMap) :=
  match m with
  | [] => [(key, [(p, fi)])]
  | (k, fm) :: rest =>
    if k = key then (k, insertA fm p fi) :: rest
    else (k, fm) :: claimsInsert rest key p fi

/-- The backend scan of mod.rs lines 161-172: walk the (already sorted)
repos with their indices and return the first index whose
`claims_for_path` is non-empty, together with the returned ids. -/
def firstClaimAux (repos : List ComponentsRepo) (idx : Nat) (p : FsPath)
    (ft : FileType) : Option (Nat × List Nat) :=
  match repos with
  | [] => none
  | r :: rest =>
    let component_ids := r.claims_for_path p ft
    if component_ids.isEmpty then firstClaimAux rest (idx + 1) p ft
    else some (idx, component_ids)

/-- One iteration of the `filter_map` in mod.rs lines 156-175: a claimed
path goes into the bucket of every returned id under the claiming repo's
index; an unclaimed path is appended to the catch-all map (the input is
iterated in ascending key order, so appending preserves the `BTreeMap`
shape of `unclaimed`). -/
def intoComponentsStep (repos : List ComponentsRepo)
    (acc : List ((Nat × Nat) × FileMap) × FileMap) (pf : FsPath × FileInfo) :
    List ((Nat × Nat) × FileMap) × FileMap :=
  match firstClaimAux repos 0 pf.1 pf.2.file_type with
  | some (ridx, ids) =>
    (ids.foldl (fun m id => claimsInsert m (ridx, id) pf.1 pf.2) acc.1, acc.2)
  | none => (acc.1, acc.2 ++ [pf])

/-- The claims phase of `into_components` (mod.rs lines 149-175), after the
repos have been sorted by priority: returns the `(repo_idx, component_id)`
buckets and the unclaimed catch-all map.  (The materialisation of buckets
into named `Component`s, lines 178-203, iterates a `HashMap` in
unspecified order and is modelled only as far as the claims need; the
final stability pass is `stability_fill_in` above.) -/
def into_components_claims (repos : List ComponentsRepo) (files : FileMap) :
    List ((Nat × Nat) × FileMap) × FileMap :=
  files.foldl (intoComponentsStep repos) ([], [])

/-- The file claimed for path `q` in bucket `key`: bucket lookup followed by
path lookup. -/
def claimAt (m : List ((Nat × Nat) × FileMap)) (key : Nat × Nat) (q : FsPath) :
    Option FileInfo :=
  (lookupK m key).bind (fun fm => lookupA fm q)

theorem lookupA_insertA_self {α : Type} (m : List (FsPath × α)) (p : FsPath) (v : α) :
    lookupA (insertA m p v) p = some v := by
  induction m with
  | nil => simp [insertA, lookupA]
  | cons kv rest ih =>
    obtain ⟨k, w⟩ := kv
    by_cases hk : k = p
    · subst hk
      simp [insertA, lookupA]
    · simp [insertA, lookupA, hk, ih]

theorem lookupA_insertA_other {α : Type} (m : List (FsPath × α)) (p q : FsPath) (v : α)
    (hne : q ≠ p) : lookupA (insertA m p v) q = lookupA m q := by
  have hpq : ¬ p = q := fun h => hne h.symm
  induction m with
  | nil => simp [insertA, lookupA, hpq]
  | cons kv rest ih =>
    obtain ⟨k, w⟩ := kv
    by_cases hk : k = p
    · subst hk
      simp [insertA, lookupA, hpq]
    · simp [insertA, lookupA, hk, ih]

theorem lookupA_append {α : Type} (m : List (FsPath × α)) (e : FsPath × α) (q : FsPath) :
    lookupA (m ++ [e]) q =
      match lookupA m q with
      | some v => some v
      | none => if e.1 = q then some e.2 else none := by
  induction m with
  | nil => simp [lookupA]
  | cons kv rest ih =>
    obtain ⟨k, w⟩ := kv
    by_cases hk : k = q
    · simp [lookupA, hk]
    · simp [lookupA, hk, ih]

/-- Master lemma for `claimsInsert`: the claim recorded at `(key', q)` after
inserting `(p, fi)` into bucket `key`. -/
theorem claimAt_claimsInsert (m : List ((Nat × Nat) × FileMap)) (key key' : Nat × Nat)
    (p q : FsPath) (fi : FileInfo) :
    claimAt (claimsInsert m key p fi) key' q =
      if key' = key ∧ q = p then some fi else claimAt m key' q := by
  induction m with
  | nil =>
    by_cases hk : key = key'
    · subst hk
      by_cases hq : q = p
      · subst hq
        simp [claimsInsert, claimAt, lookupK, lookupA]
      · have hpq : ¬ p = q := fun h => hq h.symm
        simp [claimsInsert, claimAt, lookupK, lookupA, hq, hpq]
    · have h1 : ¬ key' = key := fun h => hk h.symm
      simp [claimsInsert, claimAt, lookupK, hk, h1]
  | cons kv rest ih =>
    obtain ⟨k, fm⟩ := kv
    by_cases hkk : k = key
    · subst hkk
      by_cases hk' : k = key'
      · subst hk'
        by_cases hq : q = p
        · subst hq
          simp [claimsInsert, claimAt, lookupK, lookupA_insertA_self]
        · simp [claimsInsert, claimAt, lookupK, lookupA_insertA_other fm p q fi hq, hq]
      · have h1 : ¬ key' = k := fun h => hk' h.symm
        have h2 : ¬ (key' = k ∧ q = p) := fun h => h1 h.1
        simp [claimsInsert, claimAt, lookupK, hk', h2]
    · by_cases hk' : k = key'
      · subst hk'
        have h2 : ¬ (k = key ∧ q = p) := fun h => hkk h.1
        simp [claimsInsert, claimAt, lookupK, hkk, h2]
      · simp only [claimsInsert, if_neg hkk]
        have h1 : claimAt ((k, fm) :: claimsInsert rest key p fi) key' q =
            claimAt (claimsInsert rest key p fi) key' q := by
          simp [claimAt, lookupK, hk']
        have h2 : claimAt ((k, fm) :: rest) key' q = claimAt rest key' q := by
          simp [claimAt, lookupK, hk']
        rw [h1, h2, ih]

/-- Folding the returned ids: the claim recorded at `(key, q)` after a
claimed path's multi-id insertion. -/
theorem claimAt_idsFold (ids : List Nat) (m : List ((Nat × Nat) × FileMap))
    (ridx : Nat) (p q : FsPath) (fi : FileInfo) (key : Nat × Nat) :
    claimAt (ids.foldl (fun m id => claimsInsert m (ridx, id) p fi) m) key q =
      if key.1 = ridx ∧ key.2 ∈ ids ∧ q = p then some fi else claimAt m key q := by
  induction ids generalizing m with
  | nil => simp
  | cons a rest ih =>
    rw [List.foldl_cons, ih]
    by_cases hq : q = p
    · subst hq
      by_cases hr : key.1 = ridx
      · by_cases hrest : key.2 ∈ rest
        · simp [hr, hrest]
        · by_cases ha : key.2 = a
          · have hkey : key = (ridx, a) := Prod.ext_iff.mpr ⟨hr, ha⟩
            simp [hr, hrest, ha, claimAt_claimsInsert, hkey]
          · have hkey : key ≠ (ridx, a) := by
              intro h
              exact ha (by rw [h])
            have hmem : ¬ key.2 ∈ a :: rest := by
              intro h
              rcases List.mem_cons.mp h with h | h
              · exact ha h
              · exact hrest h
            simp [hr, hrest, hmem, claimAt_claimsInsert, hkey]
      · have : ¬ (key.1 = ridx ∧ key.2 ∈ rest ∧ True) := fun h => hr h.1
        have hkey : key ≠ (ridx, a) := by
          intro h
          exact hr (by rw [h])
        simp [hr, claimAt_claimsInsert, hkey]
    · have hkey2 : ¬ (key = (ridx, a) ∧ q = p) := fun h => hq h.2
      simp [hq, claimAt_claimsInsert, hkey2]

theorem firstClaimAux_some_ne_nil {repos : List ComponentsRepo} {idx : Nat} {p : FsPath}
    {ft : FileType} {ridx : Nat} {ids : List Nat}
    (h : firstClaimAux repos idx p ft = some (ridx, ids)) : ids ≠ [] := by
  induction repos generalizing idx with
  | nil => simp [firstClaimAux] at h
  | cons r rest ih =>
    simp only [firstClaimAux] at h
    by_cases he : (r.claims_for_path p ft).isEmpty = true
    · rw [if_pos he] at h
      exact ih h
    · rw [if_neg he] at h
      injection h with h'
      injection h' with h1 h2
      subst h2
      exact fun hc => he (by simp [hc])

/-- Processing entries whose paths all differ from `q` leaves every claim
and catch-all lookup at `q` unchanged. -/
theorem into_components_foldl_preserves (repos : List ComponentsRepo) (files : FileMap)
    (acc : List ((Nat × Nat) × FileMap) × FileMap) (q : FsPath)
    (hq : ∀ e ∈ files, e.1 ≠ q) :
    (∀ key, claimAt (files.foldl (intoComponentsStep repos) acc).1 key q =
      claimAt acc.1 key q) ∧
    lookupA (files.foldl (intoComponentsStep repos) acc).2 q = lookupA acc.2 q := by
  induction files generalizing acc with
  | nil => exact ⟨fun _ => rfl, rfl⟩
  | cons x xs ih =>
    have hx : x.1 ≠ q := hq x (List.mem_cons_self x xs)
    have hxs : ∀ e ∈ xs, e.1 ≠ q := fun e he => hq e (List.mem_cons_of_mem x he)
    rw [List.foldl_cons]
    have hstep1 : ∀ key, claimAt (intoComponentsStep repos acc x).1 key q =
        claimAt acc.1 key q := by
      intro key
      unfold intoComponentsStep
      cases hfc : firstClaimAux repos 0 x.1 x.2.file_type with
      | none => rfl
      | some v =>
        obtain ⟨ridx, ids⟩ := v
        simp only
        rw [claimAt_idsFold]
        have : ¬ (key.1 = ridx ∧ key.2 ∈ ids ∧ q = x.1) := by
          rintro ⟨-, -, rfl⟩
          exact hx rfl
        rw [if_neg this]
    have hstep2 : lookupA (intoComponentsStep repos acc x).2 q = lookupA acc.2 q := by
      unfold intoComponentsStep
      cases hfc : firstClaimAux repos 0 x.1 x.2.file_type with
      | none =>
        simp only
        rw [lookupA_append]
        have : ¬ x.1 = q := hx
        cases hlk : lookupA acc.2 q <;> simp [this]
      | some v =>
        obtain ⟨ridx, ids⟩ := v
        rfl
    obtain ⟨ih1, ih2⟩ := ih (intoComponentsStep repos acc x) hxs
    exact ⟨fun key => (ih1 key).trans (hstep1 key), ih2.trans hstep2⟩

theorem into_components_claims_partition_aux (repos : List ComponentsRepo) :
    ∀ (files : FileMap) (acc : List ((Nat × Nat) × FileMap) × FileMap)
      (p : FsPath) (fi : FileInfo),
    files.Pairwise (fun a b => a.1 ≠ b.1) →
    (p, fi) ∈ files →
    (∀ key, claimAt acc.1 key p = none) →
    lookupA acc.2 p = none →
    (match firstClaimAux repos 0 p fi.file_type with
     | some (ridx, ids) =>
        ids ≠ [] ∧
        (∀ id ∈ ids,
          claimAt (files.foldl (intoComponentsStep repos) acc).1 (ridx, id) p = some fi) ∧
        (∀ key, claimAt (files.foldl (intoComponentsStep repos) acc).1 key p ≠ none →
          key.1 = ridx ∧ key.2 ∈ ids) ∧
        lookupA (files.foldl (intoComponentsStep repos) acc).2 p = none
     | none =>
        lookupA (files.foldl (intoComponentsStep repos) acc).2 p = some fi ∧
        ∀ key, claimAt (files.foldl (intoComponentsStep repos) acc).1 key p = none) := by
  intro files
  induction files with
  | nil => intro acc p fi _ hmem; simp at hmem
  | cons x xs ih =>
    intro acc p fi hpw hmem hacc1 hacc2
    rw [List.mem_cons] at hmem
    rcases hmem with hx | hxs
    · -- the entry is the head; the tail never touches `p` again
      subst hx
      have hothers : ∀ e ∈ xs, e.1 ≠ p := by
        intro e he
        have := (List.pairwise_cons.mp hpw).1 e he
        exact fun hc => this (hc ▸ rfl)
      rw [List.foldl_cons]
      obtain ⟨hpres1, hpres2⟩ :=
        into_components_foldl_preserves repos xs
          (intoComponentsStep repos acc (p, fi)) p hothers
      cases hfc : firstClaimAux repos 0 p fi.file_type with
      | some v =>
        obtain ⟨ridx, ids⟩ := v
        have hstep : (intoComponentsStep repos acc (p, fi)) =
            (ids.foldl (fun m id => claimsInsert m (ridx, id) p fi) acc.1, acc.2) := by
          unfold intoComponentsStep
          rw [hfc]
        refine ⟨firstClaimAux_some_ne_nil hfc, ?_, ?_, ?_⟩
        · intro id hid
          rw [hpres1 (ridx, id), hstep]
          simp only
          rw [claimAt_idsFold]
          simp [hid]
        · intro key hkey
          rw [hpres1 key, hstep] at hkey
          simp only at hkey
          rw [claimAt_idsFold] at hkey
          by_cases hcond : key.1 = ridx ∧ key.2 ∈ ids ∧ p = p
          · exact ⟨hcond.1, hcond.2.1⟩
          · rw [if_neg hcond] at hkey
            exact absurd (hacc1 key) hkey
        · rw [hpres2, hstep]
          exact hacc2
      | none =>
        have hstep : (intoComponentsStep repos acc (p, fi)) =
            (acc.1, acc.2 ++ [(p, fi)]) := by
          unfold intoComponentsStep
          rw [hfc]
        refine ⟨?_, ?_⟩
        · rw [hpres2, hstep]
          simp only
          rw [lookupA_append, hacc2]
          simp
        · intro key
          rw [hpres1 key, hstep]
          exact hacc1 key
    · -- the entry is in the tail; the head's path differs from `p`
      have hxp : x.1 ≠ p := by
        have := (List.pairwise_cons.mp hpw).1 (p, fi) hxs
        exact fun hc => this (by simp [hc])
      rw [List.foldl_cons]
      have hstep1 : ∀ key, claimAt (intoComponentsStep repos acc x).1 key p = none := by
        intro key
        unfold intoComponentsStep
        cases hfc : firstClaimAux repos 0 x.1 x.2.file_type with
        | none => exact hacc1 key
        | some v =>
          obtain ⟨ridx, ids⟩ := v
          simp only
          rw [claimAt_idsFold]
          have : ¬ (key.1 = ridx ∧ key.2 ∈ ids ∧ p = x.1) := by
            rintro ⟨-, -, hc⟩
            exact hxp hc.symm
          rw [if_neg this]
          exact hacc1 key
      have hstep2 : lookupA (intoComponentsStep repos acc x).2 p = none := by
        unfold intoComponentsStep
        cases hfc : firstClaimAux repos 0 x.1 x.2.file_type with
        | none =>
          simp only
          rw [lookupA_append, hacc2]
          simp [hxp]
        | some v =>
          obtain ⟨ridx, ids⟩ := v
          exact hacc2
      exact ih (intoComponentsStep repos acc x) p fi
        (List.pairwise_cons.mp hpw).2 hxs hstep1 hstep2

/-- C5, amended.  For every path in the `FileMap`: if some backend claims
it, the *first* claiming backend (in the sorted order) wins and the path
is placed in the bucket of **every** id that backend returned — possibly
several buckets, not exactly one — and it does not appear in the
catch-all; no other backend's buckets contain it.  If no backend claims
it, the path lands (exactly) in the unclaimed catch-all and in no bucket.
Either way no path is lost and no path is both claimed and unclaimed. -/
theorem into_components_claims_partition (repos : List ComponentsRepo)
    (files : FileMap) (p : FsPath) (fi : FileInfo)
    (hpw : files.Pairwise (fun a b => a.1 ≠ b.1))
    (hmem : (p, fi) ∈ files) :
    (match firstClaimAux repos 0 p fi.file_type with
     | some (ridx, ids) =>
        ids ≠ [] ∧
        (∀ id ∈ ids,
          claimAt (into_components_claims repos files).1 (ridx, id) p = some fi) ∧
        (∀ key, claimAt (into_components_claims repos files).1 key p ≠ none →
          key.1 = ridx ∧ key.2 ∈ ids) ∧
        lookupA (into_components_claims repos files).2 p = none
     | none =>
        lookupA (into_components_claims repos files).2 p = some fi ∧
        ∀ key, claimAt (into_components_claims repos files).1 key p = none) :=
  into_components_claims_partition_aux repos files ([], []) p fi hpw hmem
    (fun _ => rfl) rfl

/-- C5, counterexample.  The claim says a path is claimed by *exactly one*
`(backend, component_id)` bucket or lands in the catch-all.  A directory
claimed by one backend with two ids (the co-ownership case the engine is
built for, mod.rs lines 164-169) ends up in **two** buckets and not in
the catch-all. -/
theorem into_components_multi_bucket_counterexample :
    (let result := into_components_claims
        [⟨"rpm", 10, fun p _ => if p = ["usr"] then [0, 1] else [], fun _ => ⟨"x", 0, 0⟩⟩]
        [(["usr"], ⟨.Directory, 0o40755, 0, 0, 0, 0, 1, 1, []⟩)]
     claimAt result.1 (0, 0) ["usr"] = some ⟨.Directory, 0o40755, 0, 0, 0, 0, 1, 1, []⟩ ∧
     claimAt result.1 (0, 1) ["usr"] = some ⟨.Directory, 0o40755, 0, 0, 0, 0, 1, 1, []⟩ ∧
     lookupA result.2 ["usr"] = none) ∧
    ((0, 0) : Nat × Nat) ≠ (0, 1) := by
  exact ⟨⟨by decide, by decide, by decide⟩, by decide⟩

/-- Witness for `into_components_claims_partition`: a one-entry `FileMap`
and one backend claiming the path with two ids. -/
theorem into_components_claims_partition_witness :
    ([((["usr"] : FsPath), FileInfo.mk .Directory 0o40755 0 0 0 0 1 1 [])].Pairwise
      (fun a b => a.1 ≠ b.1) ∧
     ((["usr"] : FsPath), FileInfo.mk .Directory 0o40755 0 0 0 0 1 1 []) ∈
      [((["usr"] : FsPath), FileInfo.mk .Directory 0o40755 0 0 0 0 1 1 [])]) ∧
    (match firstClaimAux
        [⟨"rpm", 10, fun p _ => if p = ["usr"] then [0, 1] else [], fun _ => ⟨"x", 0, 0⟩⟩]
        0 ["usr"] (FileInfo.mk .Directory 0o40755 0 0 0 0 1 1 []).file_type with
     | some (ridx, ids) =>
        ids ≠ [] ∧
        (∀ id ∈ ids,
          claimAt (into_components_claims
            [⟨"rpm", 10, fun p _ => if p = ["usr"] then [0, 1] else [], fun _ => ⟨"x", 0, 0⟩⟩]
            [(["usr"], FileInfo.mk .Directory 0o40755 0 0 0 0 1 1 [])]).1 (ridx, id) ["usr"] =
          some (FileInfo.mk .Directory 0o40755 0 0 0 0 1 1 [])) ∧
        (∀ key, claimAt (into_components_claims
            [⟨"rpm", 10, fun p _ => if p = ["usr"] then [0, 1] else [], fun _ => ⟨"x", 0, 0⟩⟩]
            [(["usr"], FileInfo.mk .Directory 0o40755 0 0 0 0 1 1 [])]).1 key ["usr"] ≠ none →
          key.1 = ridx ∧ key.2 ∈ ids) ∧
        lookupA (into_components_claims
            [⟨"rpm", 10, fun p _ => if p = ["usr"] then [0, 1] else [], fun _ => ⟨"x", 0, 0⟩⟩]
            [(["usr"], FileInfo.mk .Directory 0o40755 0 0 0 0 1 1 [])]).2 ["usr"] = none
     | none =>
        lookupA (into_components_claims
            [⟨"rpm", 10, fun p _ => if p = ["usr"] then [0, 1] else [], fun _ => ⟨"x", 0, 0⟩⟩]
            [(["usr"], FileInfo.mk .Directory 0o40755 0 0 0 0 1 1 [])]).2 ["usr"] =
          some (FileInfo.mk .Directory 0o40755 0 0 0 0 1 1 []) ∧
        ∀ key, claimAt (into_components_claims
            [⟨"rpm", 10, fun p _ => if p = ["usr"] then [0, 1] else [], fun _ => ⟨"x", 0, 0⟩⟩]
            [(["usr"], FileInfo.mk .Directory 0o40755 0 0 0 0 1 1 [])]).1 key ["usr"] = none) :=
  ⟨⟨by decide, by decide⟩,
   into_components_claims_partition
    [⟨"rpm", 10, fun p _ => if p = ["usr"] then [0, 1] else [], fun _ => ⟨"x", 0, 0⟩⟩]
    [(["usr"], FileInfo.mk .Directory 0o40755 0 0 0 0 1 1 [])]
    ["usr"] (FileInfo.mk .Directory 0o40755 0 0 0 0 1 1 [])
    (by decide) (by decide)⟩

/-! ## Per-layer tar writer (`src/tar.rs`: `write_files_to_tar`) -/

/-- Generic association-list insert (`HashMap::insert` on inode keys). -/
def insertK {κ α : Type} [DecidableEq κ] : List (κ × α) → κ → α → List (κ × α)
  | [], key, v => [(key, v)]
  | (k, w) :: rest, key, v =>
    if k = key then (k, v) :: rest else (k, w) :: insertK rest key v

/-- Entry types emitted by the writer (`tar::EntryType`): `Directory`,
`Regular`, `Symlink`, `Link` (hardlink). -/
inductive TarEntryType where
  | Directory
  | Regular
  | Symlink
  | Link
deriving DecidableEq, Repr

/-- One logical tar entry as the writer produces it.  `path` is the
root-stripped entry path (`strip_root_prefix` is the identity in the
component-list model; the `/`-suffix a directory entry carries in the
byte stream is implied by `entry_type`).  `xattrs` are the
`SCHILY.xattr.*` PAX records `append_xattrs` emits immediately before the
entry (none for hardlink entries). -/
structure TarEntry where
  entry_type : TarEntryType
  path : FsPath
  size : Nat
  mtime : Nat
  uid : Nat
  gid : Nat
  mode : Nat
  link_target : Option FsPath
  xattrs : List (String × Bytes)
deriving DecidableEq, Repr

/-- The rootfs as the tar writer consults it (tar.rs: `symlink_metadata` +
`read_xattrs` for absent ancestors, `read` for file contents, and
`read_link_contents` for symlink targets).  All three are fallible in the
source, where any error aborts the build; the model makes them total
because no claim concerns those error paths.  `statDir` returns the
`FileInfo::from_metadata(&metadata, FileType::Directory, xattrs)` value of
tar.rs line 145; `readSize` is the length of the bytes `rootfs.read`
returns; `readLink` is the link target. -/
structure Rootfs where
  statDir : FsPath → FileInfo
  readSize : FsPath → Nat
  readLink : FsPath → FsPath

/-! `write_header_from_file_info` (tar.rs lines 201-207) fixes
`mtime = min(file_info.mtime, mtime_clamp)` and copies uid/gid/mode; the
per-type entry writers below inline it. -/

/-- `write_dir_entry` from tar.rs lines 239-264. -/
def write_dir_entry (path : FsPath) (mtime_clamp : Nat) (fi : FileInfo) : TarEntry :=
  ⟨.Directory, path, 0, min fi.mtime mtime_clamp, fi.uid, fi.gid, fi.mode, none, fi.xattrs⟩

/-- `write_hardlink_entry` from tar.rs lines 267-292: entry type `Link`,
mode masked with `0o7777`, link target set, no xattr records. -/
def write_hardlink_entry (path link_target : FsPath) (mtime_clamp : Nat)
    (fi : FileInfo) : TarEntry :=
  ⟨.Link, path, 0, min fi.mtime mtime_clamp, fi.uid, fi.gid, fi.mode &&& 0o7777,
    some link_target, []⟩

/-- `write_file_entry` from tar.rs lines 295-320. -/
def write_file_entry (rootfs : Rootfs) (path : FsPath) (mtime_clamp : Nat)
    (fi : FileInfo) : TarEntry :=
  ⟨.Regular, path, rootfs.readSize path, min fi.mtime mtime_clamp, fi.uid, fi.gid,
    fi.mode, none, fi.xattrs⟩

/-- `write_symlink_entry` from tar.rs lines 323-348. -/
def write_symlink_entry (rootfs : Rootfs) (path : FsPath) (mtime_clamp : Nat)
    (fi : FileInfo) : TarEntry :=
  ⟨.Symlink, path, 0, min fi.mtime mtime_clamp, fi.uid, fi.gid, fi.mode,
    some (rootfs.readLink path), fi.xattrs⟩

/-- The dir-stack pop loop of `write_files_to_tar` (tar.rs lines 115-120):
pop entries that are not proper ancestors of the current path. -/
def popDirStack (p : FsPath) : List FsPath → List FsPath
  | [] => []
  | top :: rest => if pathStartsWith p top ∧ p ≠ top then top :: rest
                   else popDirStack p rest

/-- `path.ancestors().skip(1).filter(|q| !q.as_str().is_empty() && *q != "/")`
(tar.rs lines 124-127): the proper component-wise ancestors of `p`,
longest first, excluding the root. -/
def properAncestors (p : FsPath) : List FsPath :=
  if _h : p.length ≤ 1 then []
  else p.dropLast :: properAncestors p.dropLast
termination_by p.length
decreasing_by
  simp only [List.length_dropLast]
  omega

/-- The missing ancestor's `FileInfo` (tar.rs lines 136-146): the group's
`FileMap` entry if present, else a stat of the rootfs. -/
def ancestorInfo (files : FileMap) (rootfs : Rootfs) (q : FsPath) : FileInfo :=
  match lookupA files q with
  | some info => info
  | none => rootfs.statDir q

/-- The writer's cross-entry state: the dir stack (head = top of the Rust
`Vec`) and the inode→first-path map for hardlink detection. -/
structure TarState where
  dirStack : List FsPath
  inodeMap : List (Nat × FsPath)

/-- One iteration of the `write_files_to_tar` loop (tar.rs lines 113-175)
on entry `pf`: pop the stack, emit missing ancestors shallowest-first,
handle hardlinks, then dispatch on the file type.  Returns the next state
and the entries emitted for `pf`. -/
def tarStep (files : FileMap) (rootfs : Rootfs) (mtime_clamp : Nat)
    (st : TarState) (pf : FsPath × FileInfo) : TarState × List TarEntry :=
  let stack1 := popDirStack pf.1 st.dirStack
  let ancs := (properAncestors pf.1).takeWhile (fun q =>
    match stack1.head? with
    | none => true
    | some top => q ≠ top)
  let ancEntries := ancs.reverse.map (fun q =>
    write_dir_entry q mtime_clamp (ancestorInfo files rootfs q))
  let stack2 := ancs ++ stack1
  if pf.2.file_type ≠ FileType.Directory ∧ 1 < pf.2.nlink then
    match lookupK st.inodeMap pf.2.ino with
    | some first_path =>
      (⟨stack2, st.inodeMap⟩,
        ancEntries ++ [write_hardlink_entry pf.1 first_path mtime_clamp pf.2])
    | none =>
      let im := insertK st.inodeMap pf.2.ino pf.1
      match pf.2.file_type with
      | .Directory =>
        (⟨pf.1 :: stack2, im⟩, ancEntries ++ [write_dir_entry pf.1 mtime_clamp pf.2])
      | .File =>
        (⟨stack2, im⟩, ancEntries ++ [write_file_entry rootfs pf.1 mtime_clamp pf.2])
      | .Symlink =>
        (⟨stack2, im⟩, ancEntries ++ [write_symlink_entry rootfs pf.1 mtime_clamp pf.2])
  else
    match pf.2.file_type with
    | .Directory =>
      (⟨pf.1 :: stack2, st.inodeMap⟩,
        ancEntries ++ [write_dir_entry pf.1 mtime_clamp pf.2])
    | .File =>
      (⟨stack2, st.inodeMap⟩, ancEntries ++ [write_file_entry rootfs pf.1 mtime_clamp pf.2])
    | .Symlink =>
      (⟨stack2, st.inodeMap⟩,
        ancEntries ++ [write_symlink_entry rootfs pf.1 mtime_clamp pf.2])

/-- The loop of `write_files_to_tar` over the remaining entries. -/
def tarGo (files : FileMap) (rootfs : Rootfs) (mtime_clamp : Nat) :
    TarState → List (FsPath × FileInfo) → List TarEntry
  | _, [] => []
  | st, pf :: rest =>
    let se := tarStep files rootfs mtime_clamp st pf
    se.2 ++ tarGo files rootfs mtime_clamp se.1 rest

/-- `write_files_to_tar` from tar.rs lines 102-177: iterate the group's
`FileMap` in ascending path order with an empty dir stack and inode map,
and concatenate the emitted entries. -/
def write_files_to_tar (rootfs : Rootfs) (files : FileMap) (mtime_clamp : Nat) :
    List TarEntry :=
  tarGo files rootfs mtime_clamp ⟨[], []⟩ files

theorem lookupK_insertK_self {κ α : Type} [DecidableEq κ] (m : List (κ × α))
    (key : κ) (v : α) : lookupK (insertK m key v) key = some v := by
  induction m with
  | nil => simp [insertK, lookupK]
  | cons kv rest ih =>
    obtain ⟨k, w⟩ := kv
    by_cases hk : k = key
    · subst hk
      simp [insertK, lookupK]
    · simp [insertK, lookupK, hk, ih]

theorem lookupK_insertK_other {κ α : Type} [DecidableEq κ] (m : List (κ × α))
    (key key' : κ) (v : α) (hne : key' ≠ key) :
    lookupK (insertK m key v) key' = lookupK m key' := by
  have hkk : ¬ key = key' := fun h => hne h.symm
  induction m with
  | nil => simp [insertK, lookupK, hkk]
  | cons kv rest ih =>
    obtain ⟨k, w⟩ := kv
    by_cases hk : k = key
    · subst hk
      simp [insertK, lookupK, hkk]
    · simp [insertK, lookupK, hk, ih]

/-- The entries one `tarStep` emits: the synthesized ancestor directory
entries followed by exactly one per-type entry for the current input. -/
theorem tarStep_entries (files : FileMap) (rootfs : Rootfs) (clamp : Nat)
    (st : TarState) (pf : FsPath × FileInfo) :
    ∃ (ancs : List FsPath) (X : TarEntry),
      (tarStep files rootfs clamp st pf).2 =
        ancs.map (fun q => write_dir_entry q clamp (ancestorInfo files rootfs q)) ++ [X] ∧
      (X = write_dir_entry pf.1 clamp pf.2 ∨
       X = write_file_entry rootfs pf.1 clamp pf.2 ∨
       X = write_symlink_entry rootfs pf.1 clamp pf.2 ∨
       ∃ t, X = write_hardlink_entry pf.1 t clamp pf.2) := by
  simp only [tarStep]
  by_cases hl : pf.2.file_type ≠ FileType.Directory ∧ 1 < pf.2.nlink
  · simp only [if_pos hl]
    cases him : lookupK st.inodeMap pf.2.ino with
    | some fp =>
      exact ⟨_, _, rfl, Or.inr (Or.inr (Or.inr ⟨fp, rfl⟩))⟩
    | none =>
      cases hft : pf.2.file_type with
      | Directory => exact ⟨_, _, rfl, Or.inl rfl⟩
      | File => exact ⟨_, _, rfl, Or.inr (Or.inl rfl)⟩
      | Symlink => exact ⟨_, _, rfl, Or.inr (Or.inr (Or.inl rfl))⟩
  · simp only [if_neg hl]
    cases hft : pf.2.file_type with
    | Directory => exact ⟨_, _, rfl, Or.inl rfl⟩
    | File => exact ⟨_, _, rfl, Or.inr (Or.inl rfl)⟩
    | Symlink => exact ⟨_, _, rfl, Or.inr (Or.inr (Or.inl rfl))⟩

/-- Shape of every emitted entry: a synthesized ancestor directory entry,
or one of the four per-type entries for some input list element. -/
theorem tarGo_entry_shape (files : FileMap) (rootfs : Rootfs) (clamp : Nat) :
    ∀ (l : List (FsPath × FileInfo)) (st : TarState) (e : TarEntry),
    e ∈ tarGo files rootfs clamp st l →
    (∃ q, e = write_dir_entry q clamp (ancestorInfo files rootfs q)) ∨
    (∃ pf ∈ l,
      e = write_dir_entry pf.1 clamp pf.2 ∨
      e = write_file_entry rootfs pf.1 clamp pf.2 ∨
      e = write_symlink_entry rootfs pf.1 clamp pf.2 ∨
      ∃ t, e = write_hardlink_entry pf.1 t clamp pf.2) := by
  intro l
  induction l with
  | nil => intro st e he; simp [tarGo] at he
  | cons pf rest ih =>
    intro st e he
    rw [tarGo, List.mem_append] at he
    rcases he with he | he
    · obtain ⟨ancs, X, heq, hX⟩ := tarStep_entries files rootfs clamp st pf
      rw [heq, List.mem_append] at he
      rcases he with he | he
      · obtain ⟨q, _, rfl⟩ := List.mem_map.mp he
        exact Or.inl ⟨q, rfl⟩
      · rw [List.mem_singleton] at he
        subst he
        exact Or.inr ⟨pf, List.mem_cons_self pf rest, hX⟩
    · exact (ih _ e he).imp id (fun ⟨pf', h1, h2⟩ =>
        ⟨pf', List.mem_cons_of_mem _ h1, h2⟩)

theorem mem_unique_of_pairwise {files : FileMap} {p : FsPath} {fi fi' : FileInfo}
    (hpw : files.Pairwise (fun a b => a.1 ≠ b.1))
    (h1 : (p, fi) ∈ files) (h2 : (p, fi') ∈ files) : fi = fi' := by
  induction files with
  | nil => simp at h1
  | cons x rest ih =>
    obtain ⟨hx, hrest⟩ := List.pairwise_cons.mp hpw
    rw [List.mem_cons] at h1 h2
    rcases h1 with h1 | h1 <;> rcases h2 with h2 | h2
    · rw [← h1] at h2
      injection h2 with _ h
      exact h.symm
    · have hxp : x.1 = p := by rw [← h1]
      exact absurd hxp (hx _ h2)
    · have hxp : x.1 = p := by rw [← h2]
      exact absurd hxp (hx _ h1)
    · exact ih hrest h1 h2

theorem lookupA_eq_of_mem {files : FileMap} {p : FsPath} {fi : FileInfo}
    (hpw : files.Pairwise (fun a b => a.1 ≠ b.1))
    (hmem : (p, fi) ∈ files) : lookupA files p = some fi := by
  induction files with
  | nil => simp at hmem
  | cons x rest ih =>
    obtain ⟨hx, hrest⟩ := List.pairwise_cons.mp hpw
    rw [List.mem_cons] at hmem
    rcases hmem with hmem | hmem
    · rw [← hmem]
      simp [lookupA]
    · have hne : x.1 ≠ p := hx _ hmem
      obtain ⟨k, v⟩ := x
      simp only [lookupA, if_neg hne]
      exact ih hrest hmem

/-- C6.  Every entry `write_files_to_tar` emits — the per-entry ones, the
synthesized ancestor directory entries and the hardlink entries — has
`mtime = min(info.mtime, mtime_clamp)` for the `FileInfo` it was built
from, hence never exceeds the clamp; and an emitted entry whose path is a
`FileMap` key carries exactly `min` of that key's recorded mtime and the
clamp. -/
theorem write_files_to_tar_mtime (rootfs : Rootfs) (files : FileMap) (clamp : Nat)
    (hpw : files.Pairwise (fun a b => a.1 ≠ b.1)) :
    (∀ e ∈ write_files_to_tar rootfs files clamp, e.mtime ≤ clamp) ∧
    (∀ e ∈ write_files_to_tar rootfs files clamp,
      ∃ fi : FileInfo, e.mtime = min fi.mtime clamp) ∧
    (∀ p fi, (p, fi) ∈ files → ∀ e ∈ write_files_to_tar rootfs files clamp,
      e.path = p → e.mtime = min fi.mtime clamp) := by
  have hshape := tarGo_entry_shape files rootfs clamp files ⟨[], []⟩
  refine ⟨?_, ?_, ?_⟩
  · intro e he
    rcases hshape e he with ⟨q, rfl⟩ | ⟨pf, _, hcase⟩
    · exact min_le_right _ clamp
    · rcases hcase with rfl | rfl | rfl | ⟨t, rfl⟩ <;> exact min_le_right _ clamp
  · intro e he
    rcases hshape e he with ⟨q, rfl⟩ | ⟨pf, _, hcase⟩
    · exact ⟨ancestorInfo files rootfs q, rfl⟩
    · rcases hcase with rfl | rfl | rfl | ⟨t, rfl⟩ <;> exact ⟨pf.2, rfl⟩
  · intro p fi hmem e he hpath
    rcases hshape e he with ⟨q, rfl⟩ | ⟨pf, hpf, hcase⟩
    · have hq : q = p := hpath
      subst hq
      have hai : ancestorInfo files rootfs q = fi := by
        unfold ancestorInfo
        rw [lookupA_eq_of_mem hpw hmem]
      show min (ancestorInfo files rootfs q).mtime clamp = min fi.mtime clamp
      rw [hai]
    · have hp : pf.1 = p := by
        rcases hcase with rfl | rfl | rfl | ⟨t, rfl⟩ <;> exact hpath
      have hpf' : (p, pf.2) ∈ files := by
        rw [← hp]
        exact hpf
      have hfi : pf.2 = fi := mem_unique_of_pairwise hpw hpf' hmem
      rcases hcase with rfl | rfl | rfl | ⟨t, rfl⟩ <;> rw [← hfi] <;> rfl

/-- Witness for `write_files_to_tar_mtime`: one regular file with mtime 200
under clamp 500 (spec scenario 5). -/
theorem write_files_to_tar_mtime_witness :
    ([((["f"] : FsPath), FileInfo.mk .File 0o100644 7 0 0 200 1 1 [])].Pairwise
      (fun a b => a.1 ≠ b.1)) ∧
    (∀ e ∈ write_files_to_tar ⟨fun _ => FileInfo.mk .Directory 0o40755 0 0 0 0 1 1 [],
        fun _ => 7, fun _ => []⟩
        [(["f"], FileInfo.mk .File 0o100644 7 0 0 200 1 1 [])] 500,
      e.mtime ≤ 500) :=
  ⟨by decide,
   (write_files_to_tar_mtime
      ⟨fun _ => FileInfo.mk .Directory 0o40755 0 0 0 0 1 1 [], fun _ => 7, fun _ => []⟩
      [(["f"], FileInfo.mk .File 0o100644 7 0 0 200 1 1 [])] 500 (by decide)).1⟩

theorem pathLt_asymm : ∀ {a b : FsPath}, pathLt a b = true → pathLt b a = true → False := by
  intro a
  induction a with
  | nil => intro b hab hba; cases b <;> simp [pathLt] at hab hba
  | cons x xs ih =>
    intro b hab hba
    cases b with
    | nil => simp [pathLt] at hab
    | cons y ys =>
      rcases pathLt_cons hab with hxy | ⟨hxy, hxs⟩ <;>
        rcases pathLt_cons hba with hyx | ⟨hyx, hys⟩
      · exact absurd (lt_trans hxy hyx) (lt_irrefl x)
      · exact absurd (hyx ▸ hxy) (lt_irrefl y)
      · exact absurd (hxy ▸ hyx) (lt_irrefl x)
      · exact ih hxs hys

/-- The hardlink guard of tar.rs line 153 specialised to inode `i`. -/
def hardlinkPred (i : Nat) (pf : FsPath × FileInfo) : Bool :=
  decide (pf.2.file_type ≠ FileType.Directory ∧ 1 < pf.2.nlink ∧ pf.2.ino = i)

/-- The path the writer's inode map would record for inode `i` from the
remaining input: the first qualifying entry. -/
def firstHardlinkPath (l : List (FsPath × FileInfo)) (i : Nat) : Option FsPath :=
  (l.find? (hardlinkPred i)).map (fun pf => pf.1)

/-- How one step changes the inode map (tar.rs lines 153-160): a new
binding only for a first-seen hardlinked non-directory. -/
theorem tarStep_inodeMap (files : FileMap) (rootfs : Rootfs) (clamp : Nat)
    (st : TarState) (pf : FsPath × FileInfo) :
    (tarStep files rootfs clamp st pf).1.inodeMap =
      if pf.2.file_type ≠ FileType.Directory ∧ 1 < pf.2.nlink then
        match lookupK st.inodeMap pf.2.ino with
        | some _ => st.inodeMap
        | none => insertK st.inodeMap pf.2.ino pf.1
      else st.inodeMap := by
  simp only [tarStep]
  by_cases hl : pf.2.file_type ≠ FileType.Directory ∧ 1 < pf.2.nlink
  · simp only [if_pos hl]
    cases him : lookupK st.inodeMap pf.2.ino with
    | some fp => rfl
    | none => cases hft : pf.2.file_type <;> rfl
  · simp only [if_neg hl]
    cases hft : pf.2.file_type <;> rfl

/-- A later hardlink occurrence emits the `Link` entry pointing at the
recorded first path (tar.rs lines 154-157). -/
theorem tarStep_emits_link (files : FileMap) (rootfs : Rootfs) (clamp : Nat)
    (st : TarState) (pf : FsPath × FileInfo) (fp : FsPath)
    (h1 : pf.2.file_type ≠ FileType.Directory) (h2 : 1 < pf.2.nlink)
    (him : lookupK st.inodeMap pf.2.ino = some fp) :
    write_hardlink_entry pf.1 fp clamp pf.2 ∈ (tarStep files rootfs clamp st pf).2 := by
  simp only [tarStep, if_pos (And.intro h1 h2), him]
  exact List.mem_append_right _ (List.mem_singleton_self _)

/-- A first hardlink occurrence is emitted as a full (non-`Link`) entry of
its own type (tar.rs lines 158-174). -/
theorem tarStep_emits_full (files : FileMap) (rootfs : Rootfs) (clamp : Nat)
    (st : TarState) (pf : FsPath × FileInfo)
    (h1 : pf.2.file_type ≠ FileType.Directory) (h2 : 1 < pf.2.nlink)
    (him : lookupK st.inodeMap pf.2.ino = none) :
    (pf.2.file_type = FileType.File →
      write_file_entry rootfs pf.1 clamp pf.2 ∈ (tarStep files rootfs clamp st pf).2) ∧
    (pf.2.file_type = FileType.Symlink →
      write_symlink_entry rootfs pf.1 clamp pf.2 ∈ (tarStep files rootfs clamp st pf).2) := by
  have hcond : pf.2.file_type ≠ FileType.Directory ∧ 1 < pf.2.nlink := ⟨h1, h2⟩
  constructor
  · intro hft
    simp only [tarStep, him]
    rw [if_pos hcond]
    simp only [hft]
    exact List.mem_append_right _ (List.mem_singleton_self _)
  · intro hft
    simp only [tarStep, him]
    rw [if_pos hcond]
    simp only [hft]
    exact List.mem_append_right _ (List.mem_singleton_self _)

/-- The first path the writer would use as hardlink target for inode `i`,
given the current inode map and the remaining input: the recorded binding
if present, else the first qualifying entry ahead. -/
def availFirst (st : TarState) (l : List (FsPath × FileInfo)) (i : Nat) : Option FsPath :=
  match lookupK st.inodeMap i with
  | some x => some x
  | none => firstHardlinkPath l i

/-- One step preserves the hardlink-target resolution for the remaining
input. -/
theorem availFirst_step (files : FileMap) (rootfs : Rootfs) (clamp : Nat)
    (st : TarState) (x : FsPath × FileInfo) (rest : List (FsPath × FileInfo))
    (i : Nat) (p1 : FsPath)
    (h : availFirst st (x :: rest) i = some p1) :
    availFirst (tarStep files rootfs clamp st x).1 rest i = some p1 := by
  simp only [availFirst] at h ⊢
  cases hik : lookupK st.inodeMap i with
  | some fp =>
    simp only [hik] at h
    injection h with hfp
    subst hfp
    have hpres : lookupK (tarStep files rootfs clamp st x).1.inodeMap i = some fp := by
      rw [tarStep_inodeMap]
      by_cases hl : x.2.file_type ≠ FileType.Directory ∧ 1 < x.2.nlink
      · rw [if_pos hl]
        cases hxlk : lookupK st.inodeMap x.2.ino with
        | some _ => exact hik
        | none =>
          have hxi : x.2.ino ≠ i := by
            intro hc
            rw [hc, hik] at hxlk
            cases hxlk
          rw [lookupK_insertK_other _ _ _ _ (fun hc => hxi hc.symm)]
          exact hik
      · rw [if_neg hl]
        exact hik
    simp only [hpres]
  | none =>
    simp only [hik] at h
    by_cases hx : hardlinkPred i x = true
    · rw [firstHardlinkPath, List.find?_cons_of_pos _ hx, Option.map_some'] at h
      injection h with hfp
      obtain ⟨hxt, hxn, hxi⟩ := of_decide_eq_true hx
      have hpres : lookupK (tarStep files rootfs clamp st x).1.inodeMap i = some p1 := by
        rw [tarStep_inodeMap, if_pos (And.intro hxt hxn), hxi, hik]
        show lookupK (insertK st.inodeMap i x.1) i = some p1
        rw [lookupK_insertK_self]
        rw [show x.1 = p1 from hfp]
      simp only [hpres]
    · rw [firstHardlinkPath, List.find?_cons_of_neg _ hx] at h
      have hpres : lookupK (tarStep files rootfs clamp st x).1.inodeMap i = none := by
        rw [tarStep_inodeMap]
        by_cases hl : x.2.file_type ≠ FileType.Directory ∧ 1 < x.2.nlink
        · rw [if_pos hl]
          cases hxlk : lookupK st.inodeMap x.2.ino with
          | some _ => exact hik
          | none =>
            have hxi : x.2.ino ≠ i := by
              intro hc
              exact absurd (by simp [hardlinkPred, hl.1, hl.2, hc]) hx
            rw [lookupK_insertK_other _ _ _ _ (fun hc => hxi hc.symm)]
            exact hik
        · rw [if_neg hl]
          exact hik
      simp only [hpres]
      exact h

/-- Across the whole loop: an entry whose inode resolves to a first path
`p1` (already recorded, or ahead in the input) is emitted as a `Link`
entry pointing at `p1`. -/
theorem tarGo_link_mem (files : FileMap) (rootfs : Rootfs) (clamp : Nat) :
    ∀ (l : List (FsPath × FileInfo)) (st : TarState)
      (p2 : FsPath) (fi2 : FileInfo) (p1 : FsPath),
    (p2, fi2) ∈ l → fi2.file_type ≠ FileType.Directory → 1 < fi2.nlink →
    availFirst st l fi2.ino = some p1 →
    p1 ≠ p2 →
    write_hardlink_entry p2 p1 clamp fi2 ∈ tarGo files rootfs clamp st l := by
  intro l
  induction l with
  | nil =>
    intro st p2 fi2 p1 hmem
    simp at hmem
  | cons x rest ih =>
    intro st p2 fi2 p1 hmem h1 h2 hav hne
    rw [List.mem_cons] at hmem
    rw [tarGo, List.mem_append]
    rcases hmem with hmem | hmem
    · subst hmem
      simp only [availFirst] at hav
      cases hlk : lookupK st.inodeMap fi2.ino with
      | some fp =>
        simp only [hlk] at hav
        injection hav with hfp
        rw [← hfp]
        exact Or.inl (tarStep_emits_link files rootfs clamp st (p2, fi2) fp h1 h2 hlk)
      | none =>
        simp only [hlk] at hav
        have hpred : hardlinkPred fi2.ino (p2, fi2) = true := by
          simp [hardlinkPred, h1, h2]
        rw [firstHardlinkPath, List.find?_cons_of_pos _ hpred, Option.map_some'] at hav
        injection hav with hfp
        exact absurd hfp.symm hne
    · exact Or.inr (ih _ p2 fi2 p1 hmem h1 h2
        (availFirst_step files rootfs clamp st x rest fi2.ino p1 hav) hne)

/-- Across the whole loop: the first qualifying entry for an inode not yet
in the map is emitted as a full entry of its own type. -/
theorem tarGo_first_full_mem (files : FileMap) (rootfs : Rootfs) (clamp : Nat) :
    ∀ (l : List (FsPath × FileInfo)) (st : TarState) (i : Nat)
      (p1 : FsPath) (fi1 : FileInfo),
    l.find? (hardlinkPred i) = some (p1, fi1) →
    lookupK st.inodeMap i = none →
    ((fi1.file_type = FileType.File →
      write_file_entry rootfs p1 clamp fi1 ∈ tarGo files rootfs clamp st l) ∧
     (fi1.file_type = FileType.Symlink →
      write_symlink_entry rootfs p1 clamp fi1 ∈ tarGo files rootfs clamp st l)) := by
  intro l
  induction l with
  | nil =>
    intro st i p1 fi1 hfind
    simp at hfind
  | cons x rest ih =>
    intro st i p1 fi1 hfind hlk
    rw [tarGo]
    by_cases hx : hardlinkPred i x = true
    · rw [List.find?_cons_of_pos _ hx] at hfind
      injection hfind with hx1
      subst hx1
      obtain ⟨hxt, hxn, hxi⟩ := of_decide_eq_true hx
      have := tarStep_emits_full files rootfs clamp st (p1, fi1) hxt hxn (hxi ▸ hlk)
      exact ⟨fun hft => List.mem_append_left _ (this.1 hft),
             fun hft => List.mem_append_left _ (this.2 hft)⟩
    · rw [List.find?_cons_of_neg _ hx] at hfind
      have hlk' : lookupK (tarStep files rootfs clamp st x).1.inodeMap i = none := by
        rw [tarStep_inodeMap]
        by_cases hl : x.2.file_type ≠ FileType.Directory ∧ 1 < x.2.nlink
        · rw [if_pos hl]
          cases hxlk : lookupK st.inodeMap x.2.ino with
          | some _ => exact hlk
          | none =>
            have hxi : x.2.ino ≠ i := by
              intro hc
              exact absurd (by simp [hardlinkPred, hl.1, hl.2, hc]) hx
            rw [lookupK_insertK_other _ _ _ _ (fun hc => hxi hc.symm)]
            exact hlk
        · rw [if_neg hl]
          exact hlk
      have := ih _ i p1 fi1 hfind hlk'
      exact ⟨fun hft => List.mem_append_right _ (this.1 hft),
             fun hft => List.mem_append_right _ (this.2 hft)⟩

/-- In a path-sorted `FileMap`, the entry that is least in path order among
those sharing inode `i` is what `find?` returns. -/
theorem find?_hardlink_first (files : FileMap) (i : Nat) (p1 : FsPath) (fi1 : FileInfo)
    (hs : files.Pairwise (fun a b => pathLt a.1 b.1 = true))
    (hmem : (p1, fi1) ∈ files) (hpred : hardlinkPred i (p1, fi1) = true)
    (hmin : ∀ e ∈ files, hardlinkPred i e = true → e.1 = p1 ∨ pathLt p1 e.1 = true) :
    files.find? (hardlinkPred i) = some (p1, fi1) := by
  induction files with
  | nil => simp at hmem
  | cons x rest ih =>
    obtain ⟨hx, hrest⟩ := List.pairwise_cons.mp hs
    rw [List.mem_cons] at hmem
    by_cases hxp : hardlinkPred i x = true
    · rw [List.find?_cons_of_pos _ hxp]
      rcases hmem with hmem | hmem
      · rw [hmem]
      · exfalso
        have hlt : pathLt x.1 p1 = true := by
          have := hx _ hmem
          simpa using this
        rcases hmin x (List.mem_cons_self x rest) hxp with heq | hgt
        · rw [heq] at hlt
          rw [pathLt_irrefl] at hlt
          cases hlt
        · exact pathLt_asymm hgt hlt
    · rw [List.find?_cons_of_neg _ hxp]
      rcases hmem with hmem | hmem
      · rw [← hmem] at hxp
        exact absurd hpred hxp
      · exact ih hrest hmem
          (fun e he hp => hmin e (List.mem_cons_of_mem x he) hp)

/-- C7.  In a path-sorted `FileMap`, for non-directory entries sharing an
inode with `nlink > 1`: the first such entry in ascending path order is
emitted as a full entry of its own type, and every later entry with that
inode is emitted as a `Link` entry whose target is the first entry's path
and whose mode is the recorded mode masked with `0o7777`. -/
theorem write_files_to_tar_hardlink_law (rootfs : Rootfs) (files : FileMap)
    (clamp : Nat) (p1 p2 : FsPath) (fi1 fi2 : FileInfo)
    (hs : files.Pairwise (fun a b => pathLt a.1 b.1 = true))
    (h1mem : (p1, fi1) ∈ files) (h2mem : (p2, fi2) ∈ files)
    (h1t : fi1.file_type ≠ FileType.Directory) (h2t : fi2.file_type ≠ FileType.Directory)
    (h1n : 1 < fi1.nlink) (h2n : 1 < fi2.nlink)
    (hino : fi2.ino = fi1.ino)
    (hmin : ∀ e ∈ files, hardlinkPred fi1.ino e = true →
      e.1 = p1 ∨ pathLt p1 e.1 = true)
    (hne : p1 ≠ p2) :
    ((fi1.file_type = FileType.File →
        write_file_entry rootfs p1 clamp fi1 ∈ write_files_to_tar rootfs files clamp) ∧
     (fi1.file_type = FileType.Symlink →
        write_symlink_entry rootfs p1 clamp fi1 ∈ write_files_to_tar rootfs files clamp)) ∧
    write_hardlink_entry p2 p1 clamp fi2 ∈ write_files_to_tar rootfs files clamp ∧
    (write_hardlink_entry p2 p1 clamp fi2).entry_type = TarEntryType.Link ∧
    (write_hardlink_entry p2 p1 clamp fi2).link_target = some p1 ∧
    (write_hardlink_entry p2 p1 clamp fi2).mode = fi2.mode &&& 0o7777 := by
  have hpred1 : hardlinkPred fi1.ino (p1, fi1) = true := by
    simp [hardlinkPred, h1t, h1n]
  have hfind := find?_hardlink_first files fi1.ino p1 fi1 hs h1mem hpred1 hmin
  refine ⟨?_, ?_, rfl, rfl, rfl⟩
  · exact tarGo_first_full_mem files rootfs clamp files ⟨[], []⟩ fi1.ino p1 fi1 hfind rfl
  · refine tarGo_link_mem files rootfs clamp files ⟨[], []⟩ p2 fi2 p1 h2mem h2t h2n ?_ hne
    simp only [availFirst, lookupK, hino]
    rw [firstHardlinkPath, hfind, Option.map_some']

/-- Witness for `write_files_to_tar_hardlink_law`: two regular files
hardlinked to the same inode; the later path is emitted as a `Link` to the
earlier one. -/
theorem write_files_to_tar_hardlink_law_witness :
    ([((["a"] : FsPath), FileInfo.mk .File 0o100644 7 0 0 100 9 2 []),
      ((["a", "b"] : FsPath), FileInfo.mk .File 0o100644 7 0 0 100 9 2 [])].Pairwise
        (fun a b => pathLt a.1 b.1 = true)) ∧
    (∀ e ∈ [((["a"] : FsPath), FileInfo.mk .File 0o100644 7 0 0 100 9 2 []),
            ((["a", "b"] : FsPath), FileInfo.mk .File 0o100644 7 0 0 100 9 2 [])],
      hardlinkPred 9 e = true → e.1 = ["a"] ∨ pathLt ["a"] e.1 = true) ∧
    write_hardlink_entry ["a", "b"] ["a"] 500 (FileInfo.mk .File 0o100644 7 0 0 100 9 2 []) ∈
      write_files_to_tar
        ⟨fun _ => FileInfo.mk .Directory 0o40755 0 0 0 0 1 1 [], fun _ => 7, fun _ => []⟩
        [(["a"], FileInfo.mk .File 0o100644 7 0 0 100 9 2 []),
         (["a", "b"], FileInfo.mk .File 0o100644 7 0 0 100 9 2 [])] 500 :=
  ⟨by decide, by decide,
   (write_files_to_tar_hardlink_law
      ⟨fun _ => FileInfo.mk .Directory 0o40755 0 0 0 0 1 1 [], fun _ => 7, fun _ => []⟩
      [(["a"], FileInfo.mk .File 0o100644 7 0 0 100 9 2 []),
       (["a", "b"], FileInfo.mk .File 0o100644 7 0 0 100 9 2 [])] 500
      ["a"] ["a", "b"] (FileInfo.mk .File 0o100644 7 0 0 100 9 2 [])
      (FileInfo.mk .File 0o100644 7 0 0 100 9 2 [])
      (by decide) (by decide) (by decide) (by decide) (by decide)
      (by decide) (by decide) rfl (by decide) (by decide)).2.1⟩

/-! ## Xattr backend (`src/components/xattr.rs`) -/

/-- `XATTR_NAME` from xattr.rs line 9. -/
def XATTR_NAME : String := "user.component"

/-- One UTF-8 continuation byte (`0x80..=0xBF`). -/
def utf8Cont (b : Nat) : Bool := decide (0x80 ≤ b ∧ b ≤ 0xBF)

/-- Validity of a byte string as UTF-8, exactly the check
`String::from_utf8` performs (no overlong forms, no surrogates, maximum
scalar value `0x10FFFF`). -/
def isValidUtf8 : Bytes → Bool
  | [] => true
  | b0 :: rest =>
    if b0 ≤ 0x7F then isValidUtf8 rest
    else if 0xC2 ≤ b0 ∧ b0 ≤ 0xDF then
      match rest with
      | b1 :: r => utf8Cont b1 && isValidUtf8 r
      | [] => false
    else if b0 = 0xE0 then
      match rest with
      | b1 :: b2 :: r => decide (0xA0 ≤ b1 ∧ b1 ≤ 0xBF) && utf8Cont b2 && isValidUtf8 r
      | _ => false
    else if (0xE1 ≤ b0 ∧ b0 ≤ 0xEC) ∨ (0xEE ≤ b0 ∧ b0 ≤ 0xEF) then
      match rest with
      | b1 :: b2 :: r => utf8Cont b1 && utf8Cont b2 && isValidUtf8 r
      | _ => false
    else if b0 = 0xED then
      match rest with
      | b1 :: b2 :: r => decide (0x80 ≤ b1 ∧ b1 ≤ 0x9F) && utf8Cont b2 && isValidUtf8 r
      | _ => false
    else if b0 = 0xF0 then
      match rest with
      | b1 :: b2 :: b3 :: r =>
        decide (0x90 ≤ b1 ∧ b1 ≤ 0xBF) && utf8Cont b2 && utf8Cont b3 && isValidUtf8 r
      | _ => false
    else if 0xF1 ≤ b0 ∧ b0 ≤ 0xF3 then
      match rest with
      | b1 :: b2 :: b3 :: r => utf8Cont b1 && utf8Cont b2 && utf8Cont b3 && isValidUtf8 r
      | _ => false
    else if b0 = 0xF4 then
      match rest with
      | b1 :: b2 :: b3 :: r =>
        decide (0x80 ≤ b1 ∧ b1 ≤ 0x8F) && utf8Cont b2 && utf8Cont b3 && isValidUtf8 r
      | _ => false
    else false

/-- `get_component_xattr` from xattr.rs lines 91-101: find the first cached
xattr named `user.component` and decode it; a non-UTF-8 value is an error.
Component names are modelled by their byte strings: decoding valid UTF-8
is injective, so name equality on the decoded `String`s agrees with
equality of the byte strings returned here. -/
def get_component_xattr (file_info : FileInfo) : Except Unit (Option Bytes) :=
  match file_info.xattrs.find? (fun kv => decide (kv.1 = XATTR_NAME)) with
  | none => Except.ok none
  | some kv => if isValidUtf8 kv.2 then Except.ok (some kv.2) else Except.error ()

/-- The raw bytes of the entry's own `user.component` xattr, if present
(the value `get_component_xattr` decodes when it is valid UTF-8). -/
def ownXattrBytes (fi : FileInfo) : Option Bytes :=
  (fi.xattrs.find? (fun kv => decide (kv.1 = XATTR_NAME))).map (fun kv => kv.2)

/-- The get-or-insert on the `IndexSet` of component names (xattr.rs lines
53-61): the existing index when the name is present, else the index of a
fresh append. -/
def getOrInsertIdx (components : List Bytes) (name : Bytes) : List Bytes × Nat :=
  match components.findIdx? (fun c => decide (c = name)) with
  | some idx => (components, idx)
  | none => (components ++ [name], components.length)

/-- The dir-stack pop loop of `XattrRepo::load` (xattr.rs lines 42-47):
pop entries that are not proper ancestors of the current path. -/
def popXattrStack (p : FsPath) : List (FsPath × Nat) → List (FsPath × Nat)
  | [] => []
  | (d, id) :: rest =>
    if pathStartsWith p d ∧ p ≠ d then (d, id) :: rest else popXattrStack p rest

/-- The evolving state of `XattrRepo::load`'s walk. -/
structure XattrLoadState where
  components : List Bytes
  path_to_component : List (FsPath × Nat)
  dir_stack : List (FsPath × Nat)

/-- One iteration of the `XattrRepo::load` walk (xattr.rs lines 40-76):
pop the stack, read the entry's own xattr (an invalid value aborts), get
or create its component id, push a directory with its own xattr, and
record the effective id — the entry's own, or else the top of stack. -/
def xattrStep (st : XattrLoadState) (pf : FsPath × FileInfo) :
    Except Unit XattrLoadState :=
  let stack1 := popXattrStack pf.1 st.dir_stack
  match get_component_xattr pf.2 with
  | Except.error e => Except.error e
  | Except.ok own_xattr =>
    match own_xattr with
    | some name =>
      let ci := getOrInsertIdx st.components name
      let stack2 :=
        if pf.2.file_type = FileType.Directory then (pf.1, ci.2) :: stack1 else stack1
      Except.ok ⟨ci.1, insertA st.path_to_component pf.1 ci.2, stack2⟩
    | none =>
      match stack1.head? with
      | some top =>
        Except.ok ⟨st.components, insertA st.path_to_component pf.1 top.2, stack1⟩
      | none => Except.ok ⟨st.components, st.path_to_component, stack1⟩

/-- The walk of `XattrRepo::load` over the remaining entries. -/
def xattrLoadAux : XattrLoadState → List (FsPath × FileInfo) → Except Unit XattrLoadState
  | st, [] => Except.ok st
  | st, pf :: rest =>
    match xattrStep st pf with
    | Except.error e => Except.error e
    | Except.ok st2 => xattrLoadAux st2 rest

/-- `XattrRepo` from xattr.rs lines 17-26. -/
structure XattrRepo where
  components : List Bytes
  path_to_component : List (FsPath × Nat)
  default_mtime_clamp : Nat

/-- `XattrRepo::load` from xattr.rs lines 32-87: walk the sorted `FileMap`
once; `None` when no component name was ever seen. -/
def XattrRepo.load (files : FileMap) (default_mtime_clamp : Nat) :
    Except Unit (Option XattrRepo) :=
  match xattrLoadAux ⟨[], [], []⟩ files with
  | Except.error e => Except.error e
  | Except.ok st =>
    if st.components.isEmpty then Except.ok none
    else Except.ok (some ⟨st.components, st.path_to_component, default_mtime_clamp⟩)

/-- `XattrRepo::claims_for_path` from xattr.rs lines 112-117. -/
def XattrRepo.claims_for_path (repo : XattrRepo) (path : FsPath)
    (_file_type : FileType) : List Nat :=
  match lookupA repo.path_to_component path with
  | some id => [id]
  | none => []

theorem get_component_xattr_ok_iff (fi : FileInfo) :
    get_component_xattr fi = Except.ok (ownXattrBytes fi) ↔
      (∀ kv, fi.xattrs.find? (fun kv => decide (kv.1 = XATTR_NAME)) = some kv →
        isValidUtf8 kv.2 = true) := by
  unfold get_component_xattr ownXattrBytes
  cases hfind : fi.xattrs.find? (fun kv => decide (kv.1 = XATTR_NAME)) with
  | none => simp
  | some kv =>
    simp only [Option.map_some']
    by_cases hv : isValidUtf8 kv.2 = true
    · simp [hv]
    · simp only [if_neg hv]
      constructor
      · intro h; cases h
      · intro h
        exact absurd (h kv rfl) hv

theorem xattrStep_error_iff (st : XattrLoadState) (pf : FsPath × FileInfo) :
    xattrStep st pf = Except.error () ↔ get_component_xattr pf.2 = Except.error () := by
  unfold xattrStep
  cases hg : get_component_xattr pf.2 with
  | error e =>
    obtain rfl : e = () := rfl
    simp
  | ok own =>
    cases own with
    | some name => simp
    | none =>
      cases hh : (popXattrStack pf.1 st.dir_stack).head? <;> simp [hh]

theorem xattrStep_ok_of_not_error (st : XattrLoadState) (pf : FsPath × FileInfo)
    (h : ¬ xattrStep st pf = Except.error ()) :
    ∃ st2, xattrStep st pf = Except.ok st2 := by
  cases hs : xattrStep st pf with
  | error e =>
    obtain rfl : e = () := rfl
    exact absurd hs h
  | ok st2 => exact ⟨st2, rfl⟩

theorem xattrLoadAux_error_iff (l : List (FsPath × FileInfo)) :
    ∀ st : XattrLoadState,
    (xattrLoadAux st l = Except.error () ↔
      ∃ pf ∈ l, get_component_xattr pf.2 = Except.error ()) := by
  induction l with
  | nil =>
    intro st
    constructor
    · intro h; cases h
    · rintro ⟨pf, hmem, -⟩; simp at hmem
  | cons pf rest ih =>
    intro st
    constructor
    · intro h
      unfold xattrLoadAux at h
      cases hs : xattrStep st pf with
      | error e =>
        obtain rfl : e = () := rfl
        exact ⟨pf, List.mem_cons_self pf rest, (xattrStep_error_iff st pf).mp hs⟩
      | ok st2 =>
        rw [hs] at h
        obtain ⟨pf2, hmem2, herr2⟩ := (ih st2).mp h
        exact ⟨pf2, List.mem_cons_of_mem pf hmem2, herr2⟩
    · rintro ⟨pf2, hmem2, herr2⟩
      unfold xattrLoadAux
      rw [List.mem_cons] at hmem2
      cases hs : xattrStep st pf with
      | error e =>
        obtain rfl : e = () := rfl
        rfl
      | ok st2 =>
        rcases hmem2 with rfl | hmem2
        · exact absurd ((xattrStep_error_iff st pf2).mpr herr2) (by rw [hs]; intro h; cases h)
        · exact (ih st2).mpr ⟨pf2, hmem2, herr2⟩

/-- C10.  `XattrRepo::load` fails exactly when some entry of the `FileMap`
carries a `user.component` xattr whose value is not valid UTF-8 (the
scanner hands values through as raw bytes; xattr.rs lines 49-50 propagate
`get_component_xattr`'s error for every entry unconditionally), and so it
succeeds only when every `user.component` value in the map decodes. -/
theorem xattr_load_utf8_error (files : FileMap) (clamp : Nat) :
    (XattrRepo.load files clamp = Except.error () ↔
      ∃ pf ∈ files, ∃ kv,
        pf.2.xattrs.find? (fun kv => decide (kv.1 = XATTR_NAME)) = some kv ∧
        isValidUtf8 kv.2 = false) := by
  have hbase : XattrRepo.load files clamp = Except.error () ↔
      xattrLoadAux ⟨[], [], []⟩ files = Except.error () := by
    unfold XattrRepo.load
    cases ha : xattrLoadAux ⟨[], [], []⟩ files with
    | error e =>
      obtain rfl : e = () := rfl
      simp
    | ok st =>
      by_cases he : st.components.isEmpty = true <;> simp [he]
  rw [hbase, xattrLoadAux_error_iff]
  constructor
  · rintro ⟨pf, hmem, herr⟩
    refine ⟨pf, hmem, ?_⟩
    unfold get_component_xattr at herr
    cases hfind : pf.2.xattrs.find? (fun kv => decide (kv.1 = XATTR_NAME)) with
    | none => simp [hfind] at herr
    | some kv =>
      simp only [hfind] at herr
      by_cases hv : isValidUtf8 kv.2 = true
      · rw [if_pos hv] at herr
        simp at herr
      · exact ⟨kv, rfl, Bool.eq_false_iff.mpr hv⟩
  · rintro ⟨pf, hmem, kv, hfind, hinv⟩
    refine ⟨pf, hmem, ?_⟩
    unfold get_component_xattr
    simp only [hfind]
    simp [hinv]

/-- `pathStartsWith` is the `List.IsPrefix` relation with arguments swapped. -/
theorem pathStartsWith_isPrefix_iff (p q : FsPath) :
    pathStartsWith p q = true ↔ q <+: p := by
  rw [pathStartsWith_iff]; exact Iff.rfl

theorem startsWith_trans {a b c : FsPath}
    (hab : pathStartsWith b a = true) (hbc : pathStartsWith c b = true) :
    pathStartsWith c a = true := by
  rw [pathStartsWith_isPrefix_iff] at hab hbc ⊢
  exact hab.trans hbc

/-- Two ancestors of the same path are comparable. -/
theorem startsWith_comparable {a b u : FsPath}
    (ha : pathStartsWith u a = true) (hb : pathStartsWith u b = true) :
    pathStartsWith b a = true ∨ pathStartsWith a b = true := by
  rw [pathStartsWith_isPrefix_iff] at ha hb ⊢
  rw [pathStartsWith_isPrefix_iff]
  exact List.prefix_or_prefix_of_prefix ha hb

/-! ### C8: xattr inheritance — spec-side definitions

The following definitions follow the words of the specification's
inheritance law (nearest ancestor directory carrying the xattr), to be
compared with the stack-based `XattrRepo.load` above. -/

/-- Membership in the live directory stack while standing at `u`: entries
whose path is a (not necessarily proper) ancestor of `u`, of directory
type, carrying their own `user.component` xattr. -/
def chainPred (u : FsPath) (e : FsPath × FileInfo) : Bool :=
  pathStartsWith u e.1 && decide (e.2.file_type = FileType.Directory) &&
    (ownXattrBytes e.2).isSome

/-- Spec-modelled candidate ancestors of `p` (C8): proper ancestor
directories of `p` carrying the `user.component` xattr. -/
def strictAncPred (p : FsPath) (e : FsPath × FileInfo) : Bool :=
  pathStartsWith p e.1 && decide (e.1 ≠ p) &&
    decide (e.2.file_type = FileType.Directory) && (ownXattrBytes e.2).isSome

/-- Spec-modelled nearest-ancestor component (C8): the deepest proper
ancestor directory of `p` in the map that carries the xattr — the last
candidate in sorted order, since ancestors of a path are totally ordered
by depth. -/
def nearestAncestorXattr (files : List (FsPath × FileInfo)) (p : FsPath) : Option Bytes :=
  ((files.filter (strictAncPred p)).getLast?).bind (fun e => ownXattrBytes e.2)

/-- Spec-modelled attribution (C8): a path bearing its own
`user.component` xattr gets that value, otherwise the nearest marked
ancestor directory's value, if any. -/
def specAttr (files : List (FsPath × FileInfo)) (p : FsPath) (fi : FileInfo) : Option Bytes :=
  match ownXattrBytes fi with
  | some v => some v
  | none => nearestAncestorXattr files p

/-- One step of accumulating component names: get-or-insert the entry's
own xattr name, if it has one. -/
def xattrNamesStep (acc : List Bytes) (pf : FsPath × FileInfo) : List Bytes :=
  match ownXattrBytes pf.2 with
  | some v => (getOrInsertIdx acc v).1
  | none => acc

/-- The accumulated component-name list after a prefix of the walk: each
entry's own xattr name is get-or-inserted in order. -/
def xattrNames (l : List (FsPath × FileInfo)) : List Bytes :=
  l.foldl xattrNamesStep []

/-- The entry pushed on the dir stack for a chain member: its path and the
index of its name in the component list. -/
def chainEntry (comps : List Bytes) (e : FsPath × FileInfo) : FsPath × Nat :=
  (e.1, (getOrInsertIdx comps ((ownXattrBytes e.2).getD [])).2)

/-- The dir stack predicted from the processed prefix `done` of the walk,
standing at path `u`: the live chain members, deepest first. -/
def chainOf (done : List (FsPath × FileInfo)) (u : FsPath) (comps : List Bytes) :
    List (FsPath × Nat) :=
  ((done.filter (chainPred u)).map (chainEntry comps)).reverse

theorem findIdx?_cons0 {α : Type} (p : α → Bool) (a : α) (l : List α) :
    (a :: l).findIdx? p = if p a then some 0 else (l.findIdx? p).map (· + 1) := by
  simp [List.findIdx?_cons]

theorem findIdx?_eq_some_of_mem {v : Bytes} :
    ∀ {comps : List Bytes}, v ∈ comps →
    ∃ i, comps.findIdx? (fun c => decide (c = v)) = some i := by
  intro comps hmem
  induction comps with
  | nil => simp at hmem
  | cons c cs ih =>
    rw [findIdx?_cons0]
    by_cases hc : c = v
    · exact ⟨0, by simp [hc]⟩
    · rw [List.mem_cons] at hmem
      rcases hmem with rfl | hmem
      · exact absurd rfl hc
      · obtain ⟨i, hi⟩ := ih hmem
        exact ⟨i + 1, by simp [hc, hi]⟩

theorem getElem?_of_findIdx?_eq_some {v : Bytes} :
    ∀ {comps : List Bytes} {i : Nat},
    comps.findIdx? (fun c => decide (c = v)) = some i →
    comps[i]? = some v := by
  intro comps
  induction comps with
  | nil => intro i h; simp [List.findIdx?] at h
  | cons c cs ih =>
    intro i h
    rw [findIdx?_cons0] at h
    by_cases hc : c = v
    · simp only [hc, if_pos] at h
      simp at h
      subst h
      simp [hc]
    · simp only [hc] at h
      rw [if_neg (by simp [hc])] at h
      rw [Option.map_eq_some'] at h
      obtain ⟨j, hj, rfl⟩ := h
      simpa using ih hj

theorem findIdx?_append_of_eq_some {v : Bytes} (ext : List Bytes) :
    ∀ {comps : List Bytes} {i : Nat},
    comps.findIdx? (fun c => decide (c = v)) = some i →
    (comps ++ ext).findIdx? (fun c => decide (c = v)) = some i := by
  intro comps
  induction comps with
  | nil => intro i h; simp [List.findIdx?] at h
  | cons c cs ih =>
    intro i h
    rw [findIdx?_cons0] at h
    rw [List.cons_append, findIdx?_cons0]
    by_cases hc : c = v
    · simpa [hc] using h
    · rw [if_neg (by simp [hc])] at h ⊢
      rw [Option.map_eq_some'] at h
      obtain ⟨j, hj, rfl⟩ := h
      rw [ih hj]
      rfl

theorem findIdx?_append_self {v : Bytes} :
    ∀ {comps : List Bytes},
    comps.findIdx? (fun c => decide (c = v)) = none →
    (comps ++ [v]).findIdx? (fun c => decide (c = v)) = some comps.length := by
  intro comps
  induction comps with
  | nil =>
    intro _
    simp [findIdx?_cons0]
  | cons c cs ih =>
    intro h
    rw [findIdx?_cons0] at h
    rw [List.cons_append, findIdx?_cons0]
    by_cases hc : c = v
    · simp [hc] at h
    · rw [if_neg (by simp [hc])] at h ⊢
      rw [Option.map_eq_none'] at h
      rw [ih h]
      simp [List.length_cons]

/-- The index of a name already present is unchanged when the list grows. -/
theorem getOrInsertIdx_snd_append {comps : List Bytes} {v : Bytes} (ext : List Bytes)
    (hmem : v ∈ comps) :
    (getOrInsertIdx (comps ++ ext) v).2 = (getOrInsertIdx comps v).2 := by
  obtain ⟨i, hi⟩ := findIdx?_eq_some_of_mem hmem
  unfold getOrInsertIdx
  rw [hi, findIdx?_append_of_eq_some ext hi]

/-- Looking up the returned index in the returned list yields the name. -/
theorem getOrInsertIdx_get (comps : List Bytes) (v : Bytes) :
    ((getOrInsertIdx comps v).1)[(getOrInsertIdx comps v).2]? = some v := by
  unfold getOrInsertIdx
  cases hf : comps.findIdx? (fun c => decide (c = v)) with
  | some i =>
    exact getElem?_of_findIdx?_eq_some hf
  | none =>
    exact List.getElem?_concat_length comps v

/-- Get-or-insert is idempotent on the index. -/
theorem getOrInsertIdx_idem (comps : List Bytes) (v : Bytes) :
    (getOrInsertIdx (getOrInsertIdx comps v).1 v).2 = (getOrInsertIdx comps v).2 := by
  unfold getOrInsertIdx
  cases hf : comps.findIdx? (fun c => decide (c = v)) with
  | some i => simp [hf]
  | none =>
    simp only
    rw [findIdx?_append_self hf]

/-- The first component of get-or-insert is the old list, possibly with
the name appended. -/
theorem getOrInsertIdx_fst (comps : List Bytes) (v : Bytes) :
    (getOrInsertIdx comps v).1 = comps ∨ (getOrInsertIdx comps v).1 = comps ++ [v] := by
  unfold getOrInsertIdx
  cases comps.findIdx? (fun c => decide (c = v)) with
  | some i => exact Or.inl rfl
  | none => exact Or.inr rfl

/-- The name is a member of the get-or-insert result. -/
theorem mem_getOrInsertIdx_fst (comps : List Bytes) (v : Bytes) :
    v ∈ (getOrInsertIdx comps v).1 :=
  List.getElem?_mem (getOrInsertIdx_get comps v)

theorem getOrInsertIdx_fst_append (comps : List Bytes) (v : Bytes) :
    ∃ ext, (getOrInsertIdx comps v).1 = comps ++ ext := by
  rcases getOrInsertIdx_fst comps v with h | h
  · exact ⟨[], by simp [h]⟩
  · exact ⟨[v], h⟩

theorem xattrNames_append (done : List (FsPath × FileInfo)) (e : FsPath × FileInfo) :
    xattrNames (done ++ [e]) = xattrNamesStep (xattrNames done) e := by
  unfold xattrNames
  rw [List.foldl_append]
  rfl

theorem xattrNamesStep_mono {x : Bytes} {acc : List Bytes} (pf : FsPath × FileInfo)
    (h : x ∈ acc) : x ∈ xattrNamesStep acc pf := by
  unfold xattrNamesStep
  cases ownXattrBytes pf.2 with
  | none => exact h
  | some v =>
    obtain ⟨ext, hext⟩ := getOrInsertIdx_fst_append acc v
    simp only [hext]
    exact List.mem_append_left ext h

theorem foldl_xattrNamesStep_mono {x : Bytes} :
    ∀ (l : List (FsPath × FileInfo)) (acc : List Bytes), x ∈ acc →
    x ∈ l.foldl xattrNamesStep acc := by
  intro l
  induction l with
  | nil => intro acc h; exact h
  | cons a l ih => intro acc h; exact ih _ (xattrNamesStep_mono a h)

theorem mem_foldl_xattrNamesStep {v : Bytes} :
    ∀ (l : List (FsPath × FileInfo)) (acc : List Bytes) (pf : FsPath × FileInfo),
    pf ∈ l → ownXattrBytes pf.2 = some v →
    v ∈ l.foldl xattrNamesStep acc := by
  intro l
  induction l with
  | nil => intro acc pf h; simp at h
  | cons a l ih =>
    intro acc pf hmem hv
    rw [List.mem_cons] at hmem
    rcases hmem with rfl | hmem
    · refine foldl_xattrNamesStep_mono l _ ?_
      unfold xattrNamesStep
      rw [hv]
      exact mem_getOrInsertIdx_fst acc v
    · exact ih _ pf hmem hv

/-- Every entry's own component name appears in the accumulated list. -/
theorem mem_xattrNames {done : List (FsPath × FileInfo)} {pf : FsPath × FileInfo} {v : Bytes}
    (hmem : pf ∈ done) (hv : ownXattrBytes pf.2 = some v) : v ∈ xattrNames done :=
  mem_foldl_xattrNamesStep done [] pf hmem hv

/-- In a `Pairwise R` list, every element is the last one or `R`-below it. -/
theorem pairwise_getLast_max {α : Type} {R : α → α → Prop} :
    ∀ {l : List α} {u : α}, l.Pairwise R → l.getLast? = some u →
    ∀ e ∈ l, e = u ∨ R e u := by
  intro l
  induction l with
  | nil => intro u _ h; cases h
  | cons a l ih =>
    intro u hpw hlast e hmem
    rw [List.pairwise_cons] at hpw
    cases hl : l with
    | nil =>
      subst hl
      simp only [List.getLast?_singleton] at hlast
      injection hlast with hlast
      subst hlast
      rw [List.mem_singleton] at hmem
      exact Or.inl hmem
    | cons b l' =>
      subst hl
      rw [List.getLast?_cons_cons] at hlast
      rw [List.mem_cons] at hmem
      rcases hmem with rfl | hmem
      · exact Or.inr (hpw.1 u (List.mem_of_mem_getLast? hlast))
      · exact ih hpw.2 hlast e hmem

theorem popXattrStack_cons (p : FsPath) (x : FsPath × Nat) (rest : List (FsPath × Nat)) :
    popXattrStack p (x :: rest) =
      if pathStartsWith p x.1 ∧ p ≠ x.1 then x :: rest else popXattrStack p rest := by
  rcases x with ⟨d, id⟩
  rfl

/-- The pop loop on a reversed chain of nested directories keeps exactly
the ancestors of `p`. -/
theorem popXattrStack_reverse_map (p : FsPath) (f : (FsPath × FileInfo) → FsPath × Nat)
    (hf : ∀ e, (f e).1 = e.1) :
    ∀ l : List (FsPath × FileInfo),
    l.Pairwise (fun a b => pathStartsWith b.1 a.1 = true) →
    (∀ e ∈ l, e.1 ≠ p) →
    popXattrStack p ((l.map f).reverse) =
      ((l.filter (fun e => pathStartsWith p e.1)).map f).reverse := by
  intro l
  induction l using List.reverseRecOn with
  | nil => intro _ _; rfl
  | append_singleton l' a ih =>
    intro hpw hne
    rw [List.pairwise_append] at hpw
    have hrev : ((l' ++ [a]).map f).reverse = f a :: (l'.map f).reverse := by simp
    rw [hrev, popXattrStack_cons, hf a]
    have hnea : p ≠ a.1 :=
      fun h => hne a (List.mem_append_right l' (List.mem_singleton_self a)) h.symm
    by_cases hcond : pathStartsWith p a.1 = true
    · rw [if_pos ⟨hcond, hnea⟩]
      have hall : ∀ e ∈ l', pathStartsWith p e.1 = true := by
        intro e hmem
        have hea : pathStartsWith a.1 e.1 = true :=
          hpw.2.2 e hmem a (List.mem_singleton_self a)
        exact startsWith_trans hea hcond
      rw [List.filter_append, List.filter_eq_self.mpr hall]
      have hfa : List.filter (fun e => pathStartsWith p e.1) [a] = [a] := by
        simp [hcond]
      rw [hfa, ← hrev]
    · rw [if_neg (fun hand => hcond hand.1)]
      rw [ih hpw.1 (fun e hmem => hne e (List.mem_append_left [a] hmem))]
      rw [List.filter_append]
      have hfa : List.filter (fun e => pathStartsWith p e.1) [a] = [] := by
        simp [hcond]
      rw [hfa, List.append_nil]

theorem chainPred_startsWith {u : FsPath} {e : FsPath × FileInfo}
    (h : chainPred u e = true) : pathStartsWith u e.1 = true := by
  unfold chainPred at h
  rw [Bool.and_eq_true, Bool.and_eq_true] at h
  exact h.1.1

theorem chainPred_ownXattr {u : FsPath} {e : FsPath × FileInfo}
    (h : chainPred u e = true) : ∃ v, ownXattrBytes e.2 = some v := by
  unfold chainPred at h
  rw [Bool.and_eq_true] at h
  rcases hv : ownXattrBytes e.2 with - | v
  · rw [Option.isSome_iff_exists] at h
    obtain ⟨v, hv2⟩ := h.2
    rw [hv] at hv2
    cases hv2
  · exact ⟨v, rfl⟩

/-- Popping the stack predicted for the previous position `u` yields the
stack predicted for the next, larger position `p`. -/
theorem popXattrStack_chainOf
    {done : List (FsPath × FileInfo)} {u p : FsPath} {comps : List Bytes}
    (hpw : done.Pairwise (fun a b => pathLt a.1 b.1 = true))
    (hu : ∀ e ∈ done, e.1 = u ∨ pathLt e.1 u = true)
    (hup : u = p ∨ pathLt u p = true)
    (hp : ∀ e ∈ done, pathLt e.1 p = true) :
    popXattrStack p (chainOf done u comps) = chainOf done p comps := by
  unfold chainOf
  have hpw' : (done.filter (chainPred u)).Pairwise
      (fun a b => pathStartsWith b.1 a.1 = true) := by
    refine List.Pairwise.imp_of_mem ?_ (hpw.filter (chainPred u))
    intro a b hma hmb hlt
    have hau : pathStartsWith u a.1 = true :=
      chainPred_startsWith (List.of_mem_filter hma)
    have hbu : pathStartsWith u b.1 = true :=
      chainPred_startsWith (List.of_mem_filter hmb)
    rcases startsWith_comparable hau hbu with h | h
    · exact h
    · by_cases heq : b.1 = a.1
      · rw [heq] at hlt
        exact absurd hlt (by simp [pathLt_irrefl])
      · exact absurd (pathLt_of_startsWith h (fun hh => heq hh.symm))
          (fun h2 => pathLt_asymm hlt h2)
  have hne : ∀ e ∈ done.filter (chainPred u), e.1 ≠ p := by
    intro e hmem heq
    have := hp e (List.mem_of_mem_filter hmem)
    rw [heq] at this
    exact absurd this (by simp [pathLt_irrefl])
  rw [popXattrStack_reverse_map p (chainEntry comps) (fun e => rfl) _ hpw' hne]
  rw [List.filter_filter]
  refine congrArg _ (congrArg _ (List.filter_congr ?_))
  intro e hmem
  have himp : pathStartsWith p e.1 = true → pathStartsWith u e.1 = true := by
    intro hA
    exact startsWith_of_between hA (hu e hmem) hup
  cases hA : pathStartsWith p e.1 with
  | false => simp [chainPred, hA]
  | true =>
    have hB := himp hA
    simp [chainPred, hA, hB]

/-- The predicted stack ignores extensions of the component list, as long
as the names of the processed entries are already present. -/
theorem chainOf_append_comps
    {done : List (FsPath × FileInfo)} {u : FsPath} {comps : List Bytes} (ext : List Bytes)
    (hnames : ∀ e ∈ done, ∀ v, ownXattrBytes e.2 = some v → v ∈ comps) :
    chainOf done u (comps ++ ext) = chainOf done u comps := by
  unfold chainOf
  refine congrArg _ (List.map_eq_map_iff.mpr ?_)
  intro e hmem
  obtain ⟨v, hv⟩ := chainPred_ownXattr (List.of_mem_filter hmem)
  unfold chainEntry
  rw [hv]
  simp only [Option.getD_some]
  rw [getOrInsertIdx_snd_append ext
    (hnames e (List.mem_of_mem_filter hmem) v hv)]

theorem chainOf_append_of_pred_false
    {done : List (FsPath × FileInfo)} {e : FsPath × FileInfo} {p : FsPath}
    {comps : List Bytes} (h : chainPred p e = false) :
    chainOf (done ++ [e]) p comps = chainOf done p comps := by
  unfold chainOf
  rw [List.filter_append]
  simp [h]

theorem chainOf_append_of_pred_true
    {done : List (FsPath × FileInfo)} {e : FsPath × FileInfo} {p : FsPath}
    {comps : List Bytes} (h : chainPred p e = true) :
    chainOf (done ++ [e]) p comps = chainEntry comps e :: chainOf done p comps := by
  unfold chainOf
  rw [List.filter_append]
  simp [h]

theorem strictAncPred_parts {p : FsPath} {e : FsPath × FileInfo}
    (h : strictAncPred p e = true) :
    pathStartsWith p e.1 = true ∧ e.1 ≠ p := by
  unfold strictAncPred at h
  rw [Bool.and_eq_true, Bool.and_eq_true, Bool.and_eq_true] at h
  exact ⟨h.1.1.1, of_decide_eq_true h.1.1.2⟩

/-- Away from the path itself, the spec's candidate-ancestor predicate and
the stack-membership predicate agree. -/
theorem filter_strictAnc_eq_chain {done : List (FsPath × FileInfo)} {p : FsPath}
    (hne : ∀ e ∈ done, e.1 ≠ p) :
    done.filter (strictAncPred p) = done.filter (chainPred p) := by
  apply List.filter_congr
  intro e hmem
  have h := hne e hmem
  unfold strictAncPred chainPred
  simp [h]

theorem nearestAncestorXattr_eq_chain_getLast {done : List (FsPath × FileInfo)} {p : FsPath}
    (hne : ∀ e ∈ done, e.1 ≠ p) :
    nearestAncestorXattr done p =
      ((done.filter (chainPred p)).getLast?).bind (fun e => ownXattrBytes e.2) := by
  unfold nearestAncestorXattr
  rw [filter_strictAnc_eq_chain hne]

theorem chainOf_head? (done : List (FsPath × FileInfo)) (p : FsPath) (comps : List Bytes) :
    (chainOf done p comps).head? =
      ((done.filter (chainPred p)).getLast?).map (chainEntry comps) := by
  unfold chainOf
  rw [List.head?_reverse, List.getLast?_map]

/-- Entries sorted after `p` contribute no ancestor candidates of `p`. -/
theorem nearestAncestorXattr_append {done rest : List (FsPath × FileInfo)} {p : FsPath}
    (hgt : ∀ e ∈ rest, pathLt p e.1 = true) :
    nearestAncestorXattr (done ++ rest) p = nearestAncestorXattr done p := by
  unfold nearestAncestorXattr
  rw [List.filter_append]
  have hnil : rest.filter (strictAncPred p) = [] := by
    rw [List.filter_eq_nil_iff]
    intro e hmem hpred
    obtain ⟨hsw, hnep⟩ := strictAncPred_parts hpred
    have hlt : pathLt e.1 p = true :=
      pathLt_of_startsWith hsw (fun h => hnep h.symm)
    exact pathLt_asymm (hgt e hmem) hlt
  rw [hnil, List.append_nil]

theorem getOrInsertIdx_fst_of_mem {comps : List Bytes} {v : Bytes} (hmem : v ∈ comps) :
    (getOrInsertIdx comps v).1 = comps := by
  obtain ⟨i, hi⟩ := findIdx?_eq_some_of_mem hmem
  unfold getOrInsertIdx
  rw [hi]

/-- A nonempty predicted stack: the top entry indexes the nearest marked
ancestor's component name. -/
theorem chain_top_spec {done : List (FsPath × FileInfo)} {p : FsPath} {comps : List Bytes}
    {top : FsPath × Nat}
    (hnames : ∀ e ∈ done, ∀ v, ownXattrBytes e.2 = some v → v ∈ comps)
    (hne : ∀ e ∈ done, e.1 ≠ p)
    (htop : (chainOf done p comps).head? = some top) :
    ∃ v, nearestAncestorXattr done p = some v ∧ comps[top.2]? = some v := by
  rw [chainOf_head?, Option.map_eq_some'] at htop
  obtain ⟨cand, hcand, htopeq⟩ := htop
  have hcmem : cand ∈ done.filter (chainPred p) := List.mem_of_mem_getLast? hcand
  have hpred := List.of_mem_filter hcmem
  obtain ⟨v, hv⟩ := chainPred_ownXattr hpred
  have hvmem : v ∈ comps := hnames cand (List.mem_of_mem_filter hcmem) v hv
  refine ⟨v, ?_, ?_⟩
  · rw [nearestAncestorXattr_eq_chain_getLast hne, hcand]
    simp [hv]
  · have hidx : top.2 = (getOrInsertIdx comps v).2 := by
      rw [← htopeq]
      unfold chainEntry
      rw [hv]
      rfl
    rw [hidx]
    have h := getOrInsertIdx_get comps v
    rw [getOrInsertIdx_fst_of_mem hvmem] at h
    exact h

/-- An empty predicted stack: `p` has no marked ancestor among `done`. -/
theorem chain_empty_nearest {done : List (FsPath × FileInfo)} {p : FsPath} {comps : List Bytes}
    (hne : ∀ e ∈ done, e.1 ≠ p)
    (hnil : (chainOf done p comps).head? = none) :
    nearestAncestorXattr done p = none := by
  rw [chainOf_head?, Option.map_eq_none'] at hnil
  rw [nearestAncestorXattr_eq_chain_getLast hne, hnil]
  rfl

/-- The dir stack predicted from the processed prefix: empty before any
entry, else the chain at the last processed path. -/
def chainOfLast (done : List (FsPath × FileInfo)) (comps : List Bytes) :
    List (FsPath × Nat) :=
  match done.getLast? with
  | none => []
  | some u => chainOf done u.1 comps

/-- The binding invariant of the walk: the recorded component id of `q`
resolves to exactly the spec-side attribution of `q`, when any. -/
def specBind (files : List (FsPath × FileInfo)) (comps : List Bytes)
    (ptc : List (FsPath × Nat)) (q : FsPath) (fiq : FileInfo) : Prop :=
  match specAttr files q fiq with
  | some v => ∃ i, lookupA ptc q = some i ∧ comps[i]? = some v
  | none => lookupA ptc q = none

theorem pathLt_ne {a b : FsPath} (h : pathLt a b = true) : a ≠ b := by
  intro he
  subst he
  simp [pathLt_irrefl] at h

theorem getElem?_some_append {α : Type} {l : List α} {i : Nat} {a : α} (ext : List α)
    (h : l[i]? = some a) : (l ++ ext)[i]? = some a := by
  have hi : i < l.length := by
    by_contra hge
    push_neg at hge
    rw [List.getElem?_eq_none_iff.mpr hge] at h
    cases h
  rw [List.getElem?_append_left hi]
  exact h

theorem nearestAncestorXattr_append_self (done : List (FsPath × FileInfo))
    (e : FsPath × FileInfo) (p : FsPath) (hp : e.1 = p) :
    nearestAncestorXattr (done ++ [e]) p = nearestAncestorXattr done p := by
  unfold nearestAncestorXattr
  rw [List.filter_append]
  have hnil : List.filter (strictAncPred p) [e] = [] := by
    simp [strictAncPred, hp]
  rw [hnil, List.append_nil]

/-- Attribution of an already-processed path ignores later entries. -/
theorem specAttr_append {done : List (FsPath × FileInfo)} {pf : FsPath × FileInfo}
    {q : FsPath} {fiq : FileInfo} (hlt : pathLt q pf.1 = true) :
    specAttr (done ++ [pf]) q fiq = specAttr done q fiq := by
  unfold specAttr
  cases ownXattrBytes fiq with
  | some v => rfl
  | none =>
    exact @nearestAncestorXattr_append done [pf] q
      (fun e hmem => by rw [List.mem_singleton] at hmem; subst hmem; exact hlt)

theorem chainOfLast_nil (comps : List Bytes) : chainOfLast [] comps = [] := rfl

theorem chainOfLast_concat (done : List (FsPath × FileInfo)) (pf : FsPath × FileInfo)
    (comps : List Bytes) :
    chainOfLast (done ++ [pf]) comps = chainOf (done ++ [pf]) pf.1 comps := by
  unfold chainOfLast
  rw [List.getLast?_concat]

theorem chainPred_self_true {pf : FsPath × FileInfo}
    (hdir : pf.2.file_type = FileType.Directory) {v : Bytes}
    (hown : ownXattrBytes pf.2 = some v) : chainPred pf.1 pf = true := by
  simp [chainPred, pathStartsWith_refl, hdir, hown]

theorem chainPred_of_own_none {u : FsPath} {pf : FsPath × FileInfo}
    (hown : ownXattrBytes pf.2 = none) : chainPred u pf = false := by
  simp [chainPred, hown]

theorem chainPred_of_not_dir {u : FsPath} {pf : FsPath × FileInfo}
    (hdir : ¬ pf.2.file_type = FileType.Directory) : chainPred u pf = false := by
  simp [chainPred, hdir]

/-- One step of the walk preserves the inheritance invariants. -/
theorem xattrStep_spec
    {done : List (FsPath × FileInfo)} {st : XattrLoadState} {pf : FsPath × FileInfo}
    (hpw : (done ++ [pf]).Pairwise (fun a b => pathLt a.1 b.1 = true))
    (hvalid : get_component_xattr pf.2 = Except.ok (ownXattrBytes pf.2))
    (hcomp : st.components = xattrNames done)
    (hstack : st.dir_stack = chainOfLast done st.components)
    (hbind : ∀ q fiq, (q, fiq) ∈ done →
      specBind done st.components st.path_to_component q fiq)
    (hnone : ∀ q : FsPath, (∀ e ∈ done, e.1 ≠ q) → lookupA st.path_to_component q = none) :
    ∃ st2, xattrStep st pf = Except.ok st2 ∧
      st2.components = xattrNames (done ++ [pf]) ∧
      st2.dir_stack = chainOfLast (done ++ [pf]) st2.components ∧
      (∀ q fiq, (q, fiq) ∈ done ++ [pf] →
        specBind (done ++ [pf]) st2.components st2.path_to_component q fiq) ∧
      (∀ q : FsPath, (∀ e ∈ done ++ [pf], e.1 ≠ q) →
        lookupA st2.path_to_component q = none) := by
  have hsplit := List.pairwise_append.mp hpw
  have hpwdone : done.Pairwise (fun a b => pathLt a.1 b.1 = true) := hsplit.1
  have hltp : ∀ e ∈ done, pathLt e.1 pf.1 = true :=
    fun e he => hsplit.2.2 e he pf (List.mem_singleton_self pf)
  have hnep : ∀ e ∈ done, e.1 ≠ pf.1 := fun e he => pathLt_ne (hltp e he)
  have hnames : ∀ e ∈ done, ∀ v, ownXattrBytes e.2 = some v → v ∈ st.components := by
    intro e he v hv
    rw [hcomp]
    exact mem_xattrNames he hv
  have hpop : popXattrStack pf.1 st.dir_stack = chainOf done pf.1 st.components := by
    rw [hstack]
    unfold chainOfLast
    cases hlast : done.getLast? with
    | none =>
      have hdone : done = [] := by
        cases hdd : done with
        | nil => rfl
        | cons a l =>
          rw [hdd] at hlast
          rw [List.getLast?_eq_none_iff] at hlast
          cases hlast
      subst hdone
      rfl
    | some u =>
      refine popXattrStack_chainOf hpwdone ?_ ?_ hltp
      · intro e he
        rcases pairwise_getLast_max hpwdone hlast e he with rfl | h
        · exact Or.inl rfl
        · exact Or.inr h
      · exact Or.inr (hltp u (List.mem_of_mem_getLast? hlast))
  cases hown : ownXattrBytes pf.2 with
  | some name =>
    have hstep : xattrStep st pf = Except.ok
        ⟨(getOrInsertIdx st.components name).1,
         insertA st.path_to_component pf.1 (getOrInsertIdx st.components name).2,
         if pf.2.file_type = FileType.Directory
         then (pf.1, (getOrInsertIdx st.components name).2) :: popXattrStack pf.1 st.dir_stack
         else popXattrStack pf.1 st.dir_stack⟩ := by
      simp only [xattrStep, hvalid, hown]
    obtain ⟨ext, hext⟩ := getOrInsertIdx_fst_append st.components name
    refine ⟨_, hstep, ?_, ?_, ?_, ?_⟩
    · show (getOrInsertIdx st.components name).1 = xattrNames (done ++ [pf])
      rw [xattrNames_append]
      unfold xattrNamesStep
      rw [hown, hcomp]
    · show (if pf.2.file_type = FileType.Directory
          then (pf.1, (getOrInsertIdx st.components name).2) ::
            popXattrStack pf.1 st.dir_stack
          else popXattrStack pf.1 st.dir_stack) =
        chainOfLast (done ++ [pf]) (getOrInsertIdx st.components name).1
      rw [chainOfLast_concat]
      by_cases hdir : pf.2.file_type = FileType.Directory
      · rw [if_pos hdir]
        rw [chainOf_append_of_pred_true (chainPred_self_true hdir hown)]
        congr 1
        · unfold chainEntry
          rw [hown]
          simp only [Option.getD_some]
          rw [getOrInsertIdx_idem]
        · rw [hpop, hext, chainOf_append_comps ext hnames]
      · rw [if_neg hdir]
        rw [chainOf_append_of_pred_false (chainPred_of_not_dir hdir)]
        rw [hpop, hext, chainOf_append_comps ext hnames]
    · intro q fiq hmem
      rw [List.mem_append, List.mem_singleton] at hmem
      rcases hmem with hq | hq
      · have hlt : pathLt q pf.1 = true := hltp (q, fiq) hq
        have hb := hbind q fiq hq
        unfold specBind at hb ⊢
        rw [specAttr_append hlt]
        cases hs : specAttr done q fiq with
        | some v =>
          simp only [hs] at hb
          obtain ⟨i, hl, hg⟩ := hb
          refine ⟨i, ?_, ?_⟩
          · show lookupA (insertA st.path_to_component pf.1
              (getOrInsertIdx st.components name).2) q = some i
            rw [lookupA_insertA_other st.path_to_component pf.1 q _ (pathLt_ne hlt)]
            exact hl
          · show ((getOrInsertIdx st.components name).1)[i]? = some v
            rw [hext]
            exact getElem?_some_append ext hg
        | none =>
          simp only [hs] at hb
          exact (lookupA_insertA_other st.path_to_component pf.1 q _
            (pathLt_ne hlt)).trans hb
      · subst hq
        unfold specBind
        have hspec : specAttr (done ++ [(q, fiq)]) q fiq = some name := by
          unfold specAttr
          rw [hown]
        rw [hspec]
        exact ⟨(getOrInsertIdx st.components name).2,
          lookupA_insertA_self st.path_to_component q _,
          getOrInsertIdx_get st.components name⟩
    · intro q hq
      have hqp : pf.1 ≠ q :=
        hq pf (List.mem_append_right done (List.mem_singleton_self pf))
      show lookupA (insertA st.path_to_component pf.1
        (getOrInsertIdx st.components name).2) q = none
      rw [lookupA_insertA_other st.path_to_component pf.1 q _ (fun h => hqp h.symm)]
      exact hnone q (fun e he => hq e (List.mem_append_left [pf] he))
  | none =>
    cases hhead : (popXattrStack pf.1 st.dir_stack).head? with
    | some top =>
      have hstep : xattrStep st pf = Except.ok
          ⟨st.components, insertA st.path_to_component pf.1 top.2,
           popXattrStack pf.1 st.dir_stack⟩ := by
        simp only [xattrStep, hvalid, hown, hhead]
      have hheadc : (chainOf done pf.1 st.components).head? = some top := by
        rw [← hpop]
        exact hhead
      obtain ⟨v, hnear, hgetv⟩ := chain_top_spec hnames hnep hheadc
      refine ⟨_, hstep, ?_, ?_, ?_, ?_⟩
      · show st.components = xattrNames (done ++ [pf])
        rw [xattrNames_append]
        unfold xattrNamesStep
        rw [hown]
        exact hcomp
      · show popXattrStack pf.1 st.dir_stack = chainOfLast (done ++ [pf]) st.components
        rw [chainOfLast_concat, chainOf_append_of_pred_false (chainPred_of_own_none hown),
          hpop]
      · intro q fiq hmem
        rw [List.mem_append, List.mem_singleton] at hmem
        rcases hmem with hq | hq
        · have hlt : pathLt q pf.1 = true := hltp (q, fiq) hq
          have hb := hbind q fiq hq
          unfold specBind at hb ⊢
          rw [specAttr_append hlt]
          cases hs : specAttr done q fiq with
          | some v2 =>
            simp only [hs] at hb
            obtain ⟨i, hl, hg⟩ := hb
            refine ⟨i, ?_, hg⟩
            show lookupA (insertA st.path_to_component pf.1 top.2) q = some i
            rw [lookupA_insertA_other st.path_to_component pf.1 q _ (pathLt_ne hlt)]
            exact hl
          | none =>
            simp only [hs] at hb
            exact (lookupA_insertA_other st.path_to_component pf.1 q _
              (pathLt_ne hlt)).trans hb
        · subst hq
          unfold specBind
          have hspec : specAttr (done ++ [(q, fiq)]) q fiq = some v := by
            unfold specAttr
            rw [hown]
            rw [nearestAncestorXattr_append_self done (q, fiq) q rfl]
            exact hnear
          rw [hspec]
          exact ⟨top.2, lookupA_insertA_self st.path_to_component q top.2, hgetv⟩
      · intro q hq
        have hqp : pf.1 ≠ q :=
          hq pf (List.mem_append_right done (List.mem_singleton_self pf))
        show lookupA (insertA st.path_to_component pf.1 top.2) q = none
        rw [lookupA_insertA_other st.path_to_component pf.1 q _ (fun h => hqp h.symm)]
        exact hnone q (fun e he => hq e (List.mem_append_left [pf] he))
    | none =>
      have hstep : xattrStep st pf = Except.ok
          ⟨st.components, st.path_to_component, popXattrStack pf.1 st.dir_stack⟩ := by
        simp only [xattrStep, hvalid, hown, hhead]
      have hheadc : (chainOf done pf.1 st.components).head? = none := by
        rw [← hpop]
        exact hhead
      have hnear := chain_empty_nearest hnep hheadc
      refine ⟨_, hstep, ?_, ?_, ?_, ?_⟩
      · show st.components = xattrNames (done ++ [pf])
        rw [xattrNames_append]
        unfold xattrNamesStep
        rw [hown]
        exact hcomp
      · show popXattrStack pf.1 st.dir_stack = chainOfLast (done ++ [pf]) st.components
        rw [chainOfLast_concat, chainOf_append_of_pred_false (chainPred_of_own_none hown),
          hpop]
      · intro q fiq hmem
        rw [List.mem_append, List.mem_singleton] at hmem
        rcases hmem with hq | hq
        · have hlt : pathLt q pf.1 = true := hltp (q, fiq) hq
          have hb := hbind q fiq hq
          unfold specBind at hb ⊢
          rw [specAttr_append hlt]
          exact hb
        · subst hq
          unfold specBind
          have hspec : specAttr (done ++ [(q, fiq)]) q fiq = none := by
            unfold specAttr
            rw [hown]
            rw [nearestAncestorXattr_append_self done (q, fiq) q rfl]
            exact hnear
          rw [hspec]
          exact hnone q hnep
      · intro q hq
        exact hnone q (fun e he => hq e (List.mem_append_left [pf] he))

theorem get_component_xattr_ok_of_ne_error (fi : FileInfo)
    (h : get_component_xattr fi ≠ Except.error ()) :
    get_component_xattr fi = Except.ok (ownXattrBytes fi) := by
  unfold get_component_xattr at h
  unfold get_component_xattr ownXattrBytes
  cases hf : fi.xattrs.find? (fun kv => decide (kv.1 = XATTR_NAME)) with
  | none => simp
  | some kv =>
    rw [hf] at h
    by_cases hv : isValidUtf8 kv.2 = true
    · simp [hv]
    · simp [hv] at h

/-- The walk establishes the binding invariant for every processed entry. -/
theorem xattrLoadAux_spec :
    ∀ (rest done : List (FsPath × FileInfo)) (st : XattrLoadState),
    (done ++ rest).Pairwise (fun a b => pathLt a.1 b.1 = true) →
    (∀ pf ∈ rest, get_component_xattr pf.2 = Except.ok (ownXattrBytes pf.2)) →
    st.components = xattrNames done →
    st.dir_stack = chainOfLast done st.components →
    (∀ q fiq, (q, fiq) ∈ done →
      specBind done st.components st.path_to_component q fiq) →
    (∀ q : FsPath, (∀ e ∈ done, e.1 ≠ q) → lookupA st.path_to_component q = none) →
    ∃ stf, xattrLoadAux st rest = Except.ok stf ∧
      (∀ q fiq, (q, fiq) ∈ done ++ rest →
        specBind (done ++ rest) stf.components stf.path_to_component q fiq) := by
  intro rest
  induction rest with
  | nil =>
    intro done st hpw hvalid hcomp hstack hbind hnone
    exact ⟨st, rfl, by simpa using hbind⟩
  | cons pf rest ih =>
    intro done st hpw hvalid hcomp hstack hbind hnone
    have hsub : (done ++ [pf]).Sublist (done ++ pf :: rest) :=
      List.Sublist.append_left (List.cons_sublist_cons.mpr (List.nil_sublist rest)) done
    have hpw1 : (done ++ [pf]).Pairwise (fun a b => pathLt a.1 b.1 = true) :=
      hpw.sublist hsub
    obtain ⟨st2, hstep, hcomp2, hstack2, hbind2, hnone2⟩ :=
      xattrStep_spec hpw1 (hvalid pf (List.mem_cons_self pf rest)) hcomp hstack hbind hnone
    have hassoc : (done ++ [pf]) ++ rest = done ++ pf :: rest := by simp
    obtain ⟨stf, hload, hbindf⟩ := ih (done ++ [pf]) st2 (by rw [hassoc]; exact hpw)
      (fun e he => hvalid e (List.mem_cons_of_mem pf he)) hcomp2 hstack2 hbind2 hnone2
    refine ⟨stf, ?_, ?_⟩
    · simp only [xattrLoadAux, hstep]
      exact hload
    · rw [hassoc] at hbindf
      exact hbindf

/-- C8.  Xattr inheritance law: over a path-sorted `FileMap`, a successful
`XattrRepo::load` records for each path exactly its spec-side attribution —
the value of its own `user.component` xattr when it has one, else the value
on its nearest (deepest) proper ancestor directory present in the map that
carries the xattr; paths with neither get no binding at all.  Overriding by
a deeper marked subdirectory and the isolation of sibling subtrees are
instances of the nearest-ancestor characterisation. -/
theorem xattr_load_inheritance (files : FileMap) (clamp : Nat) (repo : XattrRepo)
    (hsorted : files.Pairwise (fun a b => pathLt a.1 b.1 = true))
    (hload : XattrRepo.load files clamp = Except.ok (some repo)) :
    ∀ p fi, (p, fi) ∈ files →
      (specAttr files p fi = none → lookupA repo.path_to_component p = none) ∧
      (∀ v, specAttr files p fi = some v →
        ∃ i, lookupA repo.path_to_component p = some i ∧
          repo.components[i]? = some v) := by
  unfold XattrRepo.load at hload
  cases ha : xattrLoadAux ⟨[], [], []⟩ files with
  | error e =>
    rw [ha] at hload
    cases hload
  | ok st =>
    rw [ha] at hload
    by_cases he : st.components.isEmpty = true
    · simp [he] at hload
    · simp only [he, if_false, Bool.false_eq_true] at hload
      injection hload with hload
      injection hload with hload
      have hc : repo.components = st.components := by rw [← hload]
      have hp : repo.path_to_component = st.path_to_component := by rw [← hload]
      have hne : xattrLoadAux ⟨[], [], []⟩ files ≠ Except.error () := by
        rw [ha]
        intro hcontra
        cases hcontra
      have hval : ∀ pf ∈ files, get_component_xattr pf.2 = Except.ok (ownXattrBytes pf.2) := by
        intro pf hmem
        apply get_component_xattr_ok_of_ne_error
        intro herr
        exact hne ((xattrLoadAux_error_iff files ⟨[], [], []⟩).mpr ⟨pf, hmem, herr⟩)
      obtain ⟨stf, hauxf, hbindf⟩ := xattrLoadAux_spec files [] ⟨[], [], []⟩
        hsorted hval rfl rfl
        (fun q fiq h => absurd h (List.not_mem_nil (q, fiq)))
        (fun q h => rfl)
      simp only [List.nil_append] at hbindf
      rw [ha] at hauxf
      injection hauxf with hst
      subst hst
      intro p fi hmem
      have hb := hbindf p fi hmem
      unfold specBind at hb
      constructor
      · intro hsn
        simp only [hsn] at hb
        rw [hp]
        exact hb
      · intro v hv
        simp only [hv] at hb
        obtain ⟨i, hl, hg⟩ := hb
        refine ⟨i, ?_, ?_⟩
        · rw [hp]
          exact hl
        · rw [hc]
          exact hg

/-- Concrete witness map for the inheritance law: a marked directory `/a`
and an unmarked file `/a/b` below it. -/
def c8Fi1 : FileInfo :=
  ⟨FileType.Directory, 493, 0, 0, 0, 5, 1, 1, [("user.component", [119, 101, 98])]⟩

def c8Fi2 : FileInfo := ⟨FileType.File, 420, 3, 0, 0, 7, 2, 1, []⟩

def c8Files : FileMap := [(["a"], c8Fi1), (["a", "b"], c8Fi2)]

def c8Repo : XattrRepo := ⟨[[119, 101, 98]], [(["a"], 0), (["a", "b"], 0)], 9⟩

theorem xattr_load_inheritance_witness :
    (∃ i, lookupA c8Repo.path_to_component ["a", "b"] = some i ∧
      c8Repo.components[i]? = some [119, 101, 98]) ∧
    specAttr c8Files ["a", "b"] c8Fi2 = some [119, 101, 98] := by
  have h := xattr_load_inheritance c8Files 9 c8Repo (by decide) (by rfl)
    ["a", "b"] c8Fi2 (by decide)
  exact ⟨h.2 [119, 101, 98] (by rfl), by rfl⟩

end Chunkah